import Mathlib

/-!
# Verification of BPNN_32bit (build/BPNN/BPNN.h)

Shallow embedding of the back-propagation neural-network core.

Modelling conventions:
* C++ `float` is modelled by `ℚ` (exact field arithmetic; the claims under
  study are about the algebraic structure of the computations, not about
  rounding).
* `std::vector` is modelled by `List`.  An element access `v[i]` together
  with a mutation is modelled by `updAt`, which returns `none` when the
  index is out of bounds (out-of-bounds access is undefined behaviour in
  the C++ source, so the embedded functions are `Option`-valued).
* The process-wide pseudo-random source (`rand()`) is modelled by an
  explicit stream `rng : ℕ → ℕ` together with a counter `c : ℕ` giving the
  number of draws consumed so far; `rand() % finesse` becomes
  `rng c % finesse` and the counter is threaded through the computation.
* `rand() % finesse` is undefined behaviour for `finesse = 0`, hence the
  draw primitives are `Option`-valued as well.

Only `init` is defined in the repository (in `BPNN.h`); the functions
`forwardPropagation` and `backPropagation` are declared there but their
translation unit (`BPNN.cpp`) is not part of the repository, so they are
modelled from the specification (see the definitions marked
`Modelled from the spec:` below).
-/

namespace BPNN

/-- In-place update of element `i` of a vector, `none` when `i` is out of
bounds.  This models the C++ access `v[i]` followed by a mutation of the
referenced element (out-of-bounds access is UB in C++). -/
def updAt (f : α → α) : List α → ℕ → Option (List α)
  | [], _ => none
  | x :: xs, 0 => some (f x :: xs)
  | x :: xs, n + 1 =>
    match updAt f xs n with
    | none => none
    | some ys => some (x :: ys)

/-- `std::vector<float>::resize(n)`: truncate to `n` elements or pad with
value-initialized (`0`) elements. -/
def resizeQ (v : List ℚ) (n : ℕ) : List ℚ :=
  if n ≤ v.length then v.take n else v ++ List.replicate (n - v.length) 0

/-- `std::vector<std::vector<float>>::resize(n, fill)`: truncate to `n`
rows or pad with copies of `fill`. -/
def resizeRows (v : List (List ℚ)) (n : ℕ) (fill : List ℚ) : List (List ℚ) :=
  if n ≤ v.length then v.take n else v ++ List.replicate (n - v.length) fill

/-- One pseudo-random value of `init` (BPNN.h lines 83-84, 100-101):
`randomAmplitude * (float)(rand() % finesse) / (float)finesse`, where `r`
is the raw draw returned by `rand()`. -/
def drawQ (amp : ℚ) (fin : ℕ) (r : ℕ) : ℚ :=
  amp * ((r % fin : ℕ) : ℚ) / (fin : ℚ)

/-- `n` consecutive pseudo-random values, consuming stream positions
`c, c+1, …, c+n-1`. -/
def drawVec (amp : ℚ) (fin : ℕ) (rng : ℕ → ℕ) (c n : ℕ) : List ℚ :=
  (List.range n).map fun i => drawQ amp fin (rng (c + i))

/-- Guarded version of `drawVec`: `rand() % finesse` is UB for
`finesse = 0`, and a draw actually happens only when `0 < n`. -/
def drawVec? (amp : ℚ) (fin : ℕ) (rng : ℕ → ℕ) (c n : ℕ) : Option (List ℚ) :=
  if fin = 0 ∧ 0 < n then none else some (drawVec amp fin rng c n)

/-- A `rows × cols` matrix of consecutive pseudo-random values, drawn
row-major (the order of the nested loops at BPNN.h lines 97-102). -/
def drawMat (amp : ℚ) (fin : ℕ) (rng : ℕ → ℕ) (c rows cols : ℕ) : List (List ℚ) :=
  (List.range rows).map fun k => drawVec amp fin rng (c + k * cols) cols

/-- Guarded version of `drawMat` (a draw happens only when the matrix is
nonempty). -/
def drawMat? (amp : ℚ) (fin : ℕ) (rng : ℕ → ℕ) (c rows cols : ℕ) :
    Option (List (List ℚ)) :=
  if fin = 0 ∧ 0 < rows ∧ 0 < cols then none else some (drawMat amp fin rng c rows cols)

/-- The caller-owned state shared by the three routines (the six
containers passed by reference throughout BPNN.h). -/
structure NetState where
  z : List (List ℚ)
  a : List (List ℚ)
  bias : List (List ℚ)
  deltaBias : List (List ℚ)
  weights : List (List (List ℚ))
  deltaWeights : List (List (List ℚ))
deriving DecidableEq

/-- Body of the `jj > -1` branch of the loop of `init`
(BPNN.h lines 72-105) for one non-input layer: `jj` is the 0-based index
of the non-input layer, `prev`/`w` are `*(itInt-1)`/`*itInt`, `c` is the
number of random draws consumed so far.  The mutation order follows the
source: resize `a[jj+1]` (line 70 of the same iteration), resize `z[jj]`,
resize `bias[jj]` and `deltaBias[jj]`, draw `tempArr` and assign it to
`bias[jj]`, resize `weights[jj]` and `deltaWeights[jj]` with zero-filled
rows, draw `tempMat` and assign it to `weights[jj]`. -/
def initLayer (amp : ℚ) (fin : ℕ) (rng : ℕ → ℕ) (jj prev w c : ℕ) (s : NetState) :
    Option (NetState × ℕ) :=
  (updAt (fun r => resizeQ r w) s.a (jj + 1)).bind fun a1 =>
  (updAt (fun r => resizeQ r w) s.z jj).bind fun z1 =>
  (updAt (fun r => resizeQ r w) s.bias jj).bind fun b1 =>
  (updAt (fun r => resizeQ r w) s.deltaBias jj).bind fun db1 =>
  (drawVec? amp fin rng c w).bind fun tempArr =>
  (updAt (fun _ => tempArr) b1 jj).bind fun b2 =>
  (updAt (fun m => resizeRows m prev (List.replicate w 0)) s.weights jj).bind fun w1 =>
  (updAt (fun m => resizeRows m prev (List.replicate w 0)) s.deltaWeights jj).bind fun dw1 =>
  (drawMat? amp fin rng (c + w) prev w).bind fun tempMat =>
  (updAt (fun _ => tempMat) w1 jj).bind fun w2 =>
  some (⟨z1, a1, b2, db1, w2, dw1⟩, c + w + prev * w)

/-- The loop of `init` over the non-input part of the structure vector:
`prev` is the width of the previous layer, `ws` the remaining widths,
`jj` the 0-based index of the next non-input layer. -/
def initAux (amp : ℚ) (fin : ℕ) (rng : ℕ → ℕ) :
    ℕ → List ℕ → ℕ → ℕ → NetState → Option (NetState × ℕ)
  | _, [], _, c, s => some (s, c)
  | prev, w :: ws, jj, c, s =>
    match initLayer amp fin rng jj prev w c s with
    | none => none
    | some (s1, c1) => initAux amp fin rng w ws (jj + 1) c1 s1

/-- `init` (BPNN.h lines 55-107).  The first loop iteration (`jj = -1`)
only resizes `a[0]` to the input width; every further iteration processes
one non-input layer via `initLayer`.  Layer widths are modelled as `ℕ`
(the C++ type is `int`; a negative width makes `resize` throw in C++ and
is outside the model — every claim under study involves only nonnegative
widths). -/
def init (t : List ℕ) (amp : ℚ) (fin : ℕ) (rng : ℕ → ℕ) (c : ℕ) (s : NetState) :
    Option (NetState × ℕ) :=
  match t with
  | [] => some (s, c)
  | w0 :: rest =>
    (updAt (fun r => resizeQ r w0) s.a 0).bind fun a1 =>
      initAux amp fin rng w0 rest 0 c { s with a := a1 }

/-- The state a caller hands to `init` for a topology of `n` layers:
the outer containers have their final row counts and every row is still
empty (the containers "are created once, sized by Initializer"). -/
def freshState (n : ℕ) : NetState :=
  ⟨List.replicate (n - 1) [], List.replicate n [],
   List.replicate (n - 1) [], List.replicate (n - 1) [],
   List.replicate (n - 1) [], List.replicate (n - 1) []⟩

/-- A row of `w` zeros. -/
def zerosRow (w : ℕ) : List ℚ := List.replicate w 0

/-- Closed form of the bias rows produced by `init`: one row of `w`
consecutive draws per non-input layer, the counter advancing by
`w + prev * w` per layer. -/
def biasSpec (amp : ℚ) (fin : ℕ) (rng : ℕ → ℕ) : ℕ → List ℕ → ℕ → List (List ℚ)
  | _, [], _ => []
  | prev, w :: ws, c => drawVec amp fin rng c w :: biasSpec amp fin rng w ws (c + (w + prev * w))

/-- Closed form of the weight matrices produced by `init`: the matrix of
layer `jj` is drawn right after that layer's bias row. -/
def weightsSpec (amp : ℚ) (fin : ℕ) (rng : ℕ → ℕ) : ℕ → List ℕ → ℕ → List (List (List ℚ))
  | _, [], _ => []
  | prev, w :: ws, c =>
    drawMat amp fin rng (c + w) prev w :: weightsSpec amp fin rng w ws (c + (w + prev * w))

/-- Closed form of the `deltaWeights` matrices produced by `init`:
zero matrices of the same shapes as the weight matrices. -/
def zeroMats : ℕ → List ℕ → List (List (List ℚ))
  | _, [] => []
  | prev, w :: ws => List.replicate prev (zerosRow w) :: zeroMats w ws

/-- Total number of random draws `init` consumes for the non-input layers. -/
def totalDraws : ℕ → List ℕ → ℕ
  | _, [] => 0
  | prev, w :: ws => (w + prev * w) + totalDraws w ws

/-- The default activation-function name, `#define DEFAULT_ACTIVATION_FUNCTION
"sigmoid"` (BPNN.h line 29). -/
def DEFAULT_ACTIVATION_FUNCTION : String := "sigmoid"

/-- Name of the sigmoid activation function. -/
def sigmoidName : String := "sigmoid"

/-- Name of the identity/linear activation function (the spec requires at
least one alternative to sigmoid). -/
def identityName : String := "identity"

/-- The `"online"` learning-type selector. -/
def onlineName : String := "online"

/-- The `"batch"` learning-type selector. -/
def batchName : String := "batch"

/-- The default learning-type selector: the empty string (accumulate-only). -/
def accumName : String := ""

/-- Modelled from the spec: the error taxonomy of section 7 of the
specification (`InvalidTopology`, `ShapeMismatch`, `UnknownActivation`). -/
inductive BPError where
  | InvalidTopology
  | ShapeMismatch
  | UnknownActivation
deriving DecidableEq

/-- Modelled from the spec: the name-indexed table of activation
functions.  The sigmoid itself is a transcendental floating-point
function, so it is kept abstract as the parameter `σf`; the identity
alternative is exact. -/
def actOf (σf : ℚ → ℚ) : String → Option (ℚ → ℚ) := fun nm =>
  if nm = sigmoidName then some σf
  else if nm = identityName then some (fun x => x)
  else none

/-- Modelled from the spec: the paired table of activation derivatives
(`σd` abstracts the sigmoid derivative; the identity has derivative 1). -/
def actDerivOf (σd : ℚ → ℚ) : String → Option (ℚ → ℚ) := fun nm =>
  if nm = sigmoidName then some σd
  else if nm = identityName then some (fun _ => 1)
  else none

/-- Modelled from the spec: `Σ over i of (a[L-1][i] * weights[L-1][i][j])`,
the weighted sum over all source neurons `i` feeding neuron `j`. -/
def colSum (aPrev : List ℚ) (W : List (List ℚ)) (j : ℕ) : ℚ :=
  ((List.range aPrev.length).map fun i => aPrev.getD i 0 * (W.getD i []).getD j 0).sum

/-- Modelled from the spec: the pre-activation row of one layer,
`z[L][j] = bias[L][j] + Σ over i of (a[L-1][i] * weights[L-1][i][j])`
for `j` ranging over the `w` neurons of the layer. -/
def preActRow (w : ℕ) (b : List ℚ) (W : List (List ℚ)) (aPrev : List ℚ) : List ℚ :=
  (List.range w).map fun j => b.getD j 0 + colSum aPrev W j

/-- Zips the per-non-input-layer data (width, bias row, incoming weight
matrix, activation name). -/
def layerZip : List ℕ → List (List ℚ) → List (List (List ℚ)) → List String →
    List (ℕ × List ℚ × List (List ℚ) × String)
  | w :: ws, b :: bs, m :: ms, nm :: ns => (w, b, m, nm) :: layerZip ws bs ms ns
  | _, _, _, _ => []

/-- Modelled from the spec: the forward pass over the non-input layers in
increasing order, producing the new `z` and `a` rows; an unrecognized
activation name fails with `UnknownActivation`. -/
def forwardLayers (acts : String → Option (ℚ → ℚ)) :
    List (ℕ × List ℚ × List (List ℚ) × String) → List ℚ →
    Except BPError (List (List ℚ) × List (List ℚ))
  | [], _ => .ok ([], [])
  | (w, b, W, nm) :: rest, aPrev =>
    match acts nm with
    | none => .error .UnknownActivation
    | some f =>
      let zRow := preActRow w b W aPrev
      let aRow := zRow.map f
      match forwardLayers acts rest aRow with
      | .error e => .error e
      | .ok (zs, as1) => .ok (zRow :: zs, aRow :: as1)

/-- Modelled from the spec: `forwardPropagation` (declared at BPNN.h lines
124-130; its translation unit is not in the repository).  The input layer
stores the raw input vector (`a[0] := input`); every non-input layer `L`
gets `z[L][j] = bias[L][j] + Σ_i a[L-1][i]*weights[L-1][i][j]` and
`a[L][j] = f_L(z[L][j])`.  An input vector whose length differs from the
input-layer width is a `ShapeMismatch`; only `z` and `a` are replaced in
the returned state. -/
def forwardPropagation (acts : String → Option (ℚ → ℚ)) (t : List ℕ) (input : List ℚ)
    (names : List String) (s : NetState) : Except BPError NetState :=
  match t with
  | [] => .ok s
  | w0 :: rest =>
    if input.length = w0 then
      match forwardLayers acts (layerZip rest s.bias s.weights names) input with
      | .error e => .error e
      | .ok (zs, as1) => .ok { s with z := zs, a := input :: as1 }
    else .error .ShapeMismatch

/-- Modelled from the spec: `forwardPropagation` with the
activation-name parameter omitted: every layer uses the documented
default `DEFAULT_ACTIVATION_FUNCTION` (BPNN.h line 29). -/
def forwardPropagationD (σf : ℚ → ℚ) (t : List ℕ) (input : List ℚ) (s : NetState) :
    Except BPError NetState :=
  forwardPropagation (actOf σf) t input
    (List.replicate (t.length - 1) DEFAULT_ACTIVATION_FUNCTION) s

/-- An activation-function name outside the supported set. -/
def unknownName : String := "relu"

/-- Default element for indexing the zipped per-layer data. -/
def layerDef : ℕ × List ℚ × List (List ℚ) × String := (0, [], [], accumName)

/-- Default element for indexing the zipped derivative and `z` rows. -/
def dzDef : (ℚ → ℚ) × List ℚ := (fun q => q, [])

/-- Modelled from the spec: `Σ over k of (delta[L+1][k] * weights[L][j][k])`,
the back-propagated error sum for neuron `j`. -/
def backSum (dNext : List ℚ) (W : List (List ℚ)) (j : ℕ) : ℚ :=
  ((List.range dNext.length).map fun k => dNext.getD k 0 * (W.getD j []).getD k 0).sum

/-- Modelled from the spec: output-layer error,
`delta[Lout][j] = (a[Lout][j] - y[j]) * d(z[Lout][j])`. -/
def outDelta (aOut y zRow : List ℚ) (d : ℚ → ℚ) : List ℚ :=
  (List.range zRow.length).map fun j => (aOut.getD j 0 - y.getD j 0) * d (zRow.getD j 0)

/-- Modelled from the spec: hidden-layer error,
`delta[L][j] = (Σ_k delta[L+1][k] * weights[L][j][k]) * d(z[L][j])`. -/
def hiddenDelta (dNext : List ℚ) (W : List (List ℚ)) (zRow : List ℚ) (d : ℚ → ℚ) : List ℚ :=
  (List.range zRow.length).map fun j => backSum dNext W j * d (zRow.getD j 0)

/-- Modelled from the spec: the per-layer error signals, computed from the
output layer backwards.  The argument list pairs each non-input layer's
activation derivative with its `z` row; `Ws` holds the OUTGOING weight
matrix of each non-output layer (i.e. the weight list without its first
matrix). -/
def computeDeltas (aOut y : List ℚ) :
    List ((ℚ → ℚ) × List ℚ) → List (List (List ℚ)) → List (List ℚ)
  | [], _ => []
  | (d, zr) :: dzs, Ws =>
    match dzs with
    | [] => [outDelta aOut y zr d]
    | _ :: _ =>
      let rest := computeDeltas aOut y dzs Ws.tail
      hiddenDelta (rest.headD []) (Ws.headD []) zr d :: rest

/-- Resolution of the per-layer activation names against a
name-to-function table; `none` as soon as one name is unrecognized. -/
def resolveActs (table : String → Option (ℚ → ℚ)) : List String → Option (List (ℚ → ℚ))
  | [] => some []
  | nm :: ns =>
    match table nm with
    | none => none
    | some f =>
      match resolveActs table ns with
      | none => none
      | some fs => some (f :: fs)

/-- The error signals of one `backPropagation` call on state `s`. -/
def deltasOf (ds : List (ℚ → ℚ)) (y : List ℚ) (s : NetState) : List (List ℚ) :=
  computeDeltas (s.a.getLastD []) y (List.zip ds s.z) (s.weights.drop 1)

/-- Modelled from the spec: the momentum blending of one bias-delta row,
`new_delta = momentumFactor * old_delta + learningRate * gradient_b` with
`gradient_b = delta[L][j]`. -/
def blendB (mf lr : ℚ) (old dl : List ℚ) : List ℚ :=
  List.zipWith (fun o dj => mf * o + lr * dj) old dl

/-- Modelled from the spec: the momentum blending of one weight-delta
matrix, `new_delta = momentumFactor * old_delta + learningRate *
gradient_w` with `gradient_w = delta[L][j] * a[L-1][i]`; rows are indexed
by the source neuron `i`, columns by the destination neuron `j`. -/
def blendW (mf lr : ℚ) (old : List (List ℚ)) (aPrev dl : List ℚ) : List (List ℚ) :=
  List.zipWith (fun oldRow ai => List.zipWith (fun o dj => mf * o + lr * (dj * ai)) oldRow dl)
    old aPrev

/-- Three-way zip. -/
def zipW3 (f : α → β → γ → δ) : List α → List β → List γ → List δ
  | a :: as1, b :: bs, c :: cs => f a b c :: zipW3 f as1 bs cs
  | _, _, _ => []

/-- Element-wise sum of two rows. -/
def addV (xs ys : List ℚ) : List ℚ := List.zipWith (fun x y => x + y) xs ys

/-- Row-wise sum of two row lists. -/
def addRows (xs ys : List (List ℚ)) : List (List ℚ) := List.zipWith addV xs ys

/-- Matrix-wise sum of two matrix lists. -/
def addMats (xs ys : List (List (List ℚ))) : List (List (List ℚ)) :=
  List.zipWith addRows xs ys

/-- Modelled from the spec: `backPropagation` (declared at BPNN.h lines
162-171; its translation unit is not in the repository).  A target vector
whose length differs from the output-layer width is a `ShapeMismatch`; an
unrecognized activation name is an `UnknownActivation`.  Learning-type
policy (case-sensitive, per spec section 4.3): `"online"` applies the
blended deltas to `weights`/`bias` and stores them; `"batch"` adds the
currently stored `deltaWeights`/`deltaBias` onto `weights`/`bias` without
recomputing gradients; any other string (the accumulate-only default)
stores the blended deltas without touching `weights`/`bias`. -/
def backPropagation (derivs : String → Option (ℚ → ℚ)) (t : List ℕ) (y : List ℚ)
    (lr mf : ℚ) (learningType : String) (names : List String) (s : NetState) :
    Except BPError NetState :=
  match t with
  | [] => .ok s
  | w0 :: rest =>
    if y.length = rest.getLastD w0 then
      match resolveActs derivs names with
      | none => .error .UnknownActivation
      | some ds =>
        if learningType = batchName then
          .ok { s with bias := addRows s.bias s.deltaBias,
                       weights := addMats s.weights s.deltaWeights }
        else
          let deltas := deltasOf ds y s
          let nDB := List.zipWith (blendB mf lr) s.deltaBias deltas
          let nDW := zipW3 (blendW mf lr) s.deltaWeights s.a.dropLast deltas
          if learningType = onlineName then
            .ok { s with bias := addRows s.bias nDB, deltaBias := nDB,
                         weights := addMats s.weights nDW, deltaWeights := nDW }
          else
            .ok { s with deltaBias := nDB, deltaWeights := nDW }
    else .error .ShapeMismatch

/-- A learning-type string that is neither `"online"` nor `"batch"`. -/
def miniName : String := "mini"

/-- Shape predicate: one row per entry of `ws`, row `i` of length
`ws[i]`. -/
def rowsShape (ws : List ℕ) (xs : List (List ℚ)) : Prop :=
  xs.length = ws.length ∧ ∀ i, i < ws.length → (xs.getD i []).length = ws.getD i 0

/-- Shape predicate for the weight-matrix lists: matrix `i` has
`prevs[i]` rows, each of length `ws[i]`. -/
def matsShape (prevs ws : List ℕ) (ms : List (List (List ℚ))) : Prop :=
  ms.length = ws.length ∧
  ∀ i, i < ws.length →
    (ms.getD i []).length = prevs.getD i 0 ∧
    ∀ row ∈ ms.getD i [], row.length = ws.getD i 0

/-- The Data Model invariant for a state over topology `w0 :: rest`. -/
def goodState (w0 : ℕ) (rest : List ℕ) (s : NetState) : Prop :=
  rowsShape rest s.z ∧ rowsShape (w0 :: rest) s.a ∧ rowsShape rest s.bias ∧
  rowsShape rest s.deltaBias ∧ matsShape (w0 :: rest) rest s.weights ∧
  matsShape (w0 :: rest) rest s.deltaWeights

/-- A concrete pre-call state for examples. -/
def exS : NetState := ⟨[[4]], [[2], [6]], [[1]], [[10]], [[[3]]], [[[20]]]⟩

/-- The state `exS` after one accumulate-mode backward pass with target
`[1]`, learning rate 1, momentum 1 and the identity activation. -/
def exS' : NetState := ⟨[[4]], [[2], [6]], [[1]], [[15]], [[[3]]], [[[30]]]⟩

/-- One training step: a forward pass on the example's input followed by a
backward pass on its target (the training-loop protocol of spec section 2). -/
def trainStep (acts derivs : String → Option (ℚ → ℚ)) (t : List ℕ) (names : List String)
    (lr mf : ℚ) (mode : String) (ex : List ℚ × List ℚ) (s : NetState) :
    Except BPError NetState :=
  match forwardPropagation acts t ex.1 names s with
  | .error e => .error e
  | .ok s1 => backPropagation derivs t ex.2 lr mf mode names s1

/-- A sequence of training steps with a fixed learning mode. -/
def runSteps (acts derivs : String → Option (ℚ → ℚ)) (t : List ℕ) (names : List String)
    (lr mf : ℚ) (mode : String) : List (List ℚ × List ℚ) → NetState → Except BPError NetState
  | [], s => .ok s
  | ex :: exs, s =>
    match trainStep acts derivs t names lr mf mode ex s with
    | .error e => .error e
    | .ok s1 => runSteps acts derivs t names lr mf mode exs s1

/-- All-zero start state for the `[1, 1]` batch-versus-online scenario. -/
def cxS0 : NetState := ⟨[[0]], [[0], [0]], [[0]], [[0]], [[[0]]], [[[0]]]⟩

/-- Two training examples on the `[1, 1]` network. -/
def cxExs : List (List ℚ × List ℚ) := [([1], [1]), ([1], [3])]

/-- Batch schedule of the scenario: accumulate both examples with the
empty learning type, then flush once with `"batch"` (momentum 0,
learning rate 1, identity activation). -/
def cxBatch : Except BPError NetState :=
  match runSteps (actOf (fun x => x)) (actDerivOf (fun _ => 1)) [1, 1] [identityName]
      1 0 accumName cxExs cxS0 with
  | .error e => .error e
  | .ok s1 => backPropagation (actDerivOf (fun _ => 1)) [1, 1] [3] 1 0 batchName
      [identityName] s1

/-- Online schedule of the scenario: the same two examples applied with
`"online"` updates sequentially. -/
def cxOnline : Except BPError NetState :=
  runSteps (actOf (fun x => x)) (actDerivOf (fun _ => 1)) [1, 1] [identityName]
    1 0 onlineName cxExs cxS0

/-- The weight matrices of a successful run (empty on error). -/
def weightsOf : Except BPError NetState → List (List (List ℚ))
  | .ok s => s.weights
  | .error _ => []

theorem updAt_append (f : α → α) (xs : List α) (y : α) (ys : List α) :
    updAt f (xs ++ y :: ys) xs.length = some (xs ++ f y :: ys) := by
  induction xs with
  | nil => rfl
  | cons x xs ih => simp [updAt, ih]

theorem updAt_exists (f : α → α) :
    ∀ (xs : List α) (i : ℕ), i < xs.length →
      ∃ ys, updAt f xs i = some ys ∧ ys.length = xs.length := by
  intro xs
  induction xs with
  | nil => intro i h; simp at h
  | cons x xs ih =>
    intro i h
    match i with
    | 0 => exact ⟨f x :: xs, rfl, by simp⟩
    | n + 1 =>
      obtain ⟨ys, hys, hlen⟩ := ih n (by simpa using h)
      exact ⟨x :: ys, by simp [updAt, hys], by simp [hlen]⟩

theorem resizeQ_nil (w : ℕ) : resizeQ [] w = zerosRow w := by
  cases w with
  | zero => rfl
  | succ n => simp [resizeQ, zerosRow]

theorem resizeRows_nil (n : ℕ) (fill : List ℚ) :
    resizeRows [] n fill = List.replicate n fill := by
  cases n with
  | zero => rfl
  | succ m => simp [resizeRows]

theorem drawVec?_eq (amp : ℚ) (fin : ℕ) (rng : ℕ → ℕ) (c n : ℕ) (hf : fin ≠ 0) :
    drawVec? amp fin rng c n = some (drawVec amp fin rng c n) := by
  simp [drawVec?, hf]

theorem drawMat?_eq (amp : ℚ) (fin : ℕ) (rng : ℕ → ℕ) (c rows cols : ℕ) (hf : fin ≠ 0) :
    drawMat? amp fin rng c rows cols = some (drawMat amp fin rng c rows cols) := by
  simp [drawMat?, hf]

/-- Effect of one `init` loop iteration on a state whose already-processed
rows form the prefixes and whose row at the working index is still empty. -/
theorem initLayer_fresh (amp : ℚ) (fin : ℕ) (rng : ℕ → ℕ) (hf : fin ≠ 0)
    (prev w c : ℕ) (zp ap bp dbp : List (List ℚ)) (wp dwp : List (List (List ℚ)))
    (Z A B D : List (List ℚ)) (Wm Vm : List (List (List ℚ)))
    (ha : ap.length = zp.length + 1) (hb : bp.length = zp.length)
    (hdb : dbp.length = zp.length) (hw : wp.length = zp.length)
    (hdw : dwp.length = zp.length) :
    initLayer amp fin rng zp.length prev w c
      ⟨zp ++ [] :: Z, ap ++ [] :: A, bp ++ [] :: B, dbp ++ [] :: D,
       wp ++ [] :: Wm, dwp ++ [] :: Vm⟩
    = some (⟨zp ++ zerosRow w :: Z, ap ++ zerosRow w :: A,
             bp ++ drawVec amp fin rng c w :: B, dbp ++ zerosRow w :: D,
             wp ++ drawMat amp fin rng (c + w) prev w :: Wm,
             dwp ++ List.replicate prev (zerosRow w) :: Vm⟩, c + w + prev * w) := by
  rw [initLayer]
  rw [show zp.length + 1 = ap.length from ha.symm, updAt_append]
  simp only [Option.some_bind]
  rw [updAt_append]
  simp only [Option.some_bind]
  rw [show zp.length = bp.length from hb.symm, updAt_append]
  simp only [Option.some_bind]
  rw [show bp.length = dbp.length from by omega, updAt_append]
  simp only [Option.some_bind]
  rw [drawVec?_eq amp fin rng c w hf]
  simp only [Option.some_bind]
  rw [show dbp.length = bp.length from by omega, updAt_append]
  simp only [Option.some_bind]
  rw [show bp.length = wp.length from by omega, updAt_append]
  simp only [Option.some_bind]
  rw [show wp.length = dwp.length from by omega, updAt_append]
  simp only [Option.some_bind]
  rw [drawMat?_eq amp fin rng (c + w) prev w hf]
  simp only [Option.some_bind]
  rw [show dwp.length = wp.length from by omega, updAt_append]
  simp only [Option.some_bind]
  simp [resizeQ_nil, resizeRows_nil, zerosRow]

/-- Closed form of the `init` loop over the non-input layers, starting
from a state whose remaining rows are empty. -/
theorem initAux_fresh (amp : ℚ) (fin : ℕ) (rng : ℕ → ℕ) (hf : fin ≠ 0) :
    ∀ (ws : List ℕ) (prev c : ℕ) (zp ap bp dbp : List (List ℚ))
      (wp dwp : List (List (List ℚ))),
      ap.length = zp.length + 1 → bp.length = zp.length →
      dbp.length = zp.length → wp.length = zp.length → dwp.length = zp.length →
      initAux amp fin rng prev ws zp.length c
        ⟨zp ++ List.replicate ws.length [], ap ++ List.replicate ws.length [],
         bp ++ List.replicate ws.length [], dbp ++ List.replicate ws.length [],
         wp ++ List.replicate ws.length [], dwp ++ List.replicate ws.length []⟩
      = some (⟨zp ++ ws.map zerosRow, ap ++ ws.map zerosRow,
               bp ++ biasSpec amp fin rng prev ws c,
               dbp ++ ws.map zerosRow,
               wp ++ weightsSpec amp fin rng prev ws c,
               dwp ++ zeroMats prev ws⟩, c + totalDraws prev ws) := by
  intro ws
  induction ws with
  | nil =>
    intro prev c zp ap bp dbp wp dwp ha hb hdb hw hdw
    simp [initAux, biasSpec, weightsSpec, zeroMats, totalDraws]
  | cons w ws ih =>
    intro prev c zp ap bp dbp wp dwp ha hb hdb hw hdw
    simp only [List.length_cons, List.replicate_succ]
    rw [initAux]
    rw [initLayer_fresh amp fin rng hf prev w c zp ap bp dbp wp dwp _ _ _ _ _ _ ha hb hdb hw hdw]
    have hz2 : zp.length + 1 = (zp ++ [zerosRow w]).length := by simp
    have step := ih w (c + w + prev * w)
      (zp ++ [zerosRow w]) (ap ++ [zerosRow w]) (bp ++ [drawVec amp fin rng c w])
      (dbp ++ [zerosRow w]) (wp ++ [drawMat amp fin rng (c + w) prev w])
      (dwp ++ [List.replicate prev (zerosRow w)])
      (by simp [ha]) (by simp [hb]) (by simp [hdb]) (by simp [hw]) (by simp [hdw])
    rw [hz2]
    simpa [biasSpec, weightsSpec, zeroMats, totalDraws, add_assoc, add_comm, add_left_comm,
      mul_comm] using step

/-- Closed form of `init` on the fresh caller state. -/
theorem init_fresh (amp : ℚ) (fin : ℕ) (rng : ℕ → ℕ) (hf : fin ≠ 0)
    (w0 : ℕ) (rest : List ℕ) (c : ℕ) :
    init (w0 :: rest) amp fin rng c (freshState (w0 :: rest).length)
    = some (⟨rest.map zerosRow, (w0 :: rest).map zerosRow,
             biasSpec amp fin rng w0 rest c, rest.map zerosRow,
             weightsSpec amp fin rng w0 rest c, zeroMats w0 rest⟩,
            c + totalDraws w0 rest) := by
  have h := initAux_fresh amp fin rng hf rest w0 c [] [zerosRow w0] [] [] [] []
    (by simp) rfl rfl rfl rfl
  simp only [List.nil_append, List.singleton_append, List.length_nil] at h
  simp only [init, freshState, List.length_cons, Nat.add_sub_cancel, List.replicate_succ,
    updAt, Option.some_bind, resizeQ_nil, List.map_cons]
  exact h

theorem drawVec_length (amp : ℚ) (fin : ℕ) (rng : ℕ → ℕ) (c n : ℕ) :
    (drawVec amp fin rng c n).length = n := by
  simp [drawVec]

theorem drawMat_length (amp : ℚ) (fin : ℕ) (rng : ℕ → ℕ) (c rows cols : ℕ) :
    (drawMat amp fin rng c rows cols).length = rows := by
  simp [drawMat]

theorem drawMat_row_length (amp : ℚ) (fin : ℕ) (rng : ℕ → ℕ) (c rows cols : ℕ) :
    ∀ row ∈ drawMat amp fin rng c rows cols, row.length = cols := by
  intro row hrow
  simp only [drawMat, List.mem_map] at hrow
  obtain ⟨k, _, rfl⟩ := hrow
  exact drawVec_length amp fin rng (c + k * cols) cols

theorem drawVec_mem (amp : ℚ) (fin : ℕ) (rng : ℕ → ℕ) (c n : ℕ) :
    ∀ q ∈ drawVec amp fin rng c n, ∃ k, q = drawQ amp fin (rng k) := by
  intro q hq
  simp only [drawVec, List.mem_map, List.mem_range] at hq
  obtain ⟨i, _, rfl⟩ := hq
  exact ⟨c + i, rfl⟩

theorem drawMat_mem (amp : ℚ) (fin : ℕ) (rng : ℕ → ℕ) (c rows cols : ℕ) :
    ∀ row ∈ drawMat amp fin rng c rows cols, ∀ q ∈ row,
      ∃ k, q = drawQ amp fin (rng k) := by
  intro row hrow
  simp only [drawMat, List.mem_map] at hrow
  obtain ⟨k, _, rfl⟩ := hrow
  exact drawVec_mem amp fin rng (c + k * cols) cols

theorem biasSpec_length (amp : ℚ) (fin : ℕ) (rng : ℕ → ℕ) :
    ∀ (ws : List ℕ) (prev c : ℕ), (biasSpec amp fin rng prev ws c).length = ws.length := by
  intro ws
  induction ws with
  | nil => intro prev c; rfl
  | cons w ws ih => intro prev c; simp [biasSpec, ih]

theorem biasSpec_getD (amp : ℚ) (fin : ℕ) (rng : ℕ → ℕ) :
    ∀ (ws : List ℕ) (prev c i : ℕ), i < ws.length →
      ((biasSpec amp fin rng prev ws c).getD i []).length = ws.getD i 0 := by
  intro ws
  induction ws with
  | nil => intro prev c i h; simp at h
  | cons w ws ih =>
    intro prev c i h
    match i with
    | 0 => simp [biasSpec, drawVec_length]
    | n + 1 => simpa [biasSpec] using ih w (c + (w + prev * w)) n (by simpa using h)

theorem biasSpec_mem (amp : ℚ) (fin : ℕ) (rng : ℕ → ℕ) :
    ∀ (ws : List ℕ) (prev c : ℕ), ∀ row ∈ biasSpec amp fin rng prev ws c,
      ∀ q ∈ row, ∃ k, q = drawQ amp fin (rng k) := by
  intro ws
  induction ws with
  | nil => intro prev c row hrow; simp [biasSpec] at hrow
  | cons w ws ih =>
    intro prev c row hrow
    simp only [biasSpec, List.mem_cons] at hrow
    rcases hrow with rfl | hrow
    · exact drawVec_mem amp fin rng c w
    · exact ih w (c + (w + prev * w)) row hrow

theorem weightsSpec_length (amp : ℚ) (fin : ℕ) (rng : ℕ → ℕ) :
    ∀ (ws : List ℕ) (prev c : ℕ), (weightsSpec amp fin rng prev ws c).length = ws.length := by
  intro ws
  induction ws with
  | nil => intro prev c; rfl
  | cons w ws ih => intro prev c; simp [weightsSpec, ih]

theorem weightsSpec_getD_rows (amp : ℚ) (fin : ℕ) (rng : ℕ → ℕ) :
    ∀ (ws : List ℕ) (prev c i : ℕ), i < ws.length →
      ((weightsSpec amp fin rng prev ws c).getD i []).length = (prev :: ws).getD i 0 := by
  intro ws
  induction ws with
  | nil => intro prev c i h; simp at h
  | cons w ws ih =>
    intro prev c i h
    match i with
    | 0 => simp [weightsSpec, drawMat_length]
    | n + 1 => simpa [weightsSpec] using ih w (c + (w + prev * w)) n (by simpa using h)

theorem weightsSpec_getD_cols (amp : ℚ) (fin : ℕ) (rng : ℕ → ℕ) :
    ∀ (ws : List ℕ) (prev c i : ℕ), i < ws.length →
      ∀ row ∈ (weightsSpec amp fin rng prev ws c).getD i [], row.length = ws.getD i 0 := by
  intro ws
  induction ws with
  | nil => intro prev c i h; simp at h
  | cons w ws ih =>
    intro prev c i h
    match i with
    | 0 => simpa [weightsSpec] using drawMat_row_length amp fin rng (c + w) prev w
    | n + 1 => simpa [weightsSpec] using ih w (c + (w + prev * w)) n (by simpa using h)

theorem weightsSpec_mem (amp : ℚ) (fin : ℕ) (rng : ℕ → ℕ) :
    ∀ (ws : List ℕ) (prev c : ℕ), ∀ mat ∈ weightsSpec amp fin rng prev ws c,
      ∀ row ∈ mat, ∀ q ∈ row, ∃ k, q = drawQ amp fin (rng k) := by
  intro ws
  induction ws with
  | nil => intro prev c mat hmat; simp [weightsSpec] at hmat
  | cons w ws ih =>
    intro prev c mat hmat
    simp only [weightsSpec, List.mem_cons] at hmat
    rcases hmat with rfl | hmat
    · exact drawMat_mem amp fin rng (c + w) prev w
    · exact ih w (c + (w + prev * w)) mat hmat

theorem zeroMats_length : ∀ (ws : List ℕ) (prev : ℕ), (zeroMats prev ws).length = ws.length := by
  intro ws
  induction ws with
  | nil => intro prev; rfl
  | cons w ws ih => intro prev; simp [zeroMats, ih]

theorem zeroMats_getD_rows : ∀ (ws : List ℕ) (prev i : ℕ), i < ws.length →
    ((zeroMats prev ws).getD i []).length = (prev :: ws).getD i 0 := by
  intro ws
  induction ws with
  | nil => intro prev i h; simp at h
  | cons w ws ih =>
    intro prev i h
    match i with
    | 0 => simp [zeroMats]
    | n + 1 => simpa [zeroMats] using ih w n (by simpa using h)

theorem zeroMats_getD_cols : ∀ (ws : List ℕ) (prev i : ℕ), i < ws.length →
    ∀ row ∈ (zeroMats prev ws).getD i [], row.length = ws.getD i 0 := by
  intro ws
  induction ws with
  | nil => intro prev i h; simp at h
  | cons w ws ih =>
    intro prev i h
    match i with
    | 0 =>
      intro row hrow
      simp only [zeroMats, List.getD_cons_zero] at hrow
      simp [List.eq_of_mem_replicate hrow, zerosRow]
    | n + 1 => simpa [zeroMats] using ih w n (by simpa using h)

theorem zeroMats_zero : ∀ (ws : List ℕ) (prev : ℕ), ∀ mat ∈ zeroMats prev ws,
    ∀ row ∈ mat, ∀ q ∈ row, q = 0 := by
  intro ws
  induction ws with
  | nil => intro prev mat hmat; simp [zeroMats] at hmat
  | cons w ws ih =>
    intro prev mat hmat
    simp only [zeroMats, List.mem_cons] at hmat
    rcases hmat with rfl | hmat
    · intro row hrow q hq
      rw [List.eq_of_mem_replicate hrow] at hq
      exact List.eq_of_mem_replicate hq
    · exact ih w mat hmat

theorem map_zerosRow_getD : ∀ (t : List ℕ) (i : ℕ), i < t.length →
    ((t.map zerosRow).getD i []).length = t.getD i 0 := by
  intro t
  induction t with
  | nil => intro i h; simp at h
  | cons w ws ih =>
    intro i h
    match i with
    | 0 => simp [zerosRow]
    | n + 1 => simpa using ih n (by simpa using h)

theorem map_zerosRow_zero (t : List ℕ) : ∀ row ∈ t.map zerosRow, ∀ q ∈ row, q = 0 := by
  intro row hrow q hq
  simp only [List.mem_map] at hrow
  obtain ⟨w, _, rfl⟩ := hrow
  exact List.eq_of_mem_replicate hq

theorem drawQ_bounds (amp : ℚ) (fin : ℕ) (hamp : 0 < amp) (hfin : 0 < fin) (r : ℕ) :
    0 ≤ drawQ amp fin r ∧ drawQ amp fin r < amp ∧
      ∃ m, m < fin ∧ drawQ amp fin r = (m : ℚ) * (amp / (fin : ℚ)) := by
  have hfq : (0 : ℚ) < (fin : ℚ) := by exact_mod_cast hfin
  have hm : ((r % fin : ℕ) : ℚ) < (fin : ℚ) := by exact_mod_cast Nat.mod_lt r hfin
  have hm0 : (0 : ℚ) ≤ ((r % fin : ℕ) : ℚ) := by positivity
  refine ⟨?_, ?_, r % fin, Nat.mod_lt r hfin, by rw [drawQ]; ring⟩
  · rw [drawQ]; positivity
  · rw [drawQ, div_lt_iff₀ hfq]
    calc amp * ((r % fin : ℕ) : ℚ) < amp * (fin : ℚ) := by
          exact (mul_lt_mul_left hamp).mpr hm
      _ = amp * (fin : ℚ) := rfl

/-- Under in-bounds indices (and nonzero finesse) one `init` loop
iteration succeeds and preserves the length of every outer container. -/
theorem initLayer_exists (amp : ℚ) (fin : ℕ) (rng : ℕ → ℕ) (hf : fin ≠ 0)
    (jj prev w c : ℕ) (s : NetState)
    (ha : jj + 1 < s.a.length) (hz : jj < s.z.length) (hb : jj < s.bias.length)
    (hdb : jj < s.deltaBias.length) (hw : jj < s.weights.length)
    (hdw : jj < s.deltaWeights.length) :
    ∃ s1, initLayer amp fin rng jj prev w c s = some (s1, c + w + prev * w)
      ∧ s1.a.length = s.a.length ∧ s1.z.length = s.z.length
      ∧ s1.bias.length = s.bias.length ∧ s1.deltaBias.length = s.deltaBias.length
      ∧ s1.weights.length = s.weights.length
      ∧ s1.deltaWeights.length = s.deltaWeights.length := by
  obtain ⟨a1, ha1, hal⟩ := updAt_exists (fun r => resizeQ r w) s.a (jj + 1) ha
  obtain ⟨z1, hz1, hzl⟩ := updAt_exists (fun r => resizeQ r w) s.z jj hz
  obtain ⟨b1, hb1, hbl⟩ := updAt_exists (fun r => resizeQ r w) s.bias jj hb
  obtain ⟨db1, hdb1, hdbl⟩ := updAt_exists (fun r => resizeQ r w) s.deltaBias jj hdb
  obtain ⟨b2, hb2, hbl2⟩ :=
    updAt_exists (fun _ => drawVec amp fin rng c w) b1 jj (by omega)
  obtain ⟨w1, hw1, hwl⟩ :=
    updAt_exists (fun m => resizeRows m prev (List.replicate w 0)) s.weights jj hw
  obtain ⟨dw1, hdw1, hdwl⟩ :=
    updAt_exists (fun m => resizeRows m prev (List.replicate w 0)) s.deltaWeights jj hdw
  obtain ⟨w2, hw2, hwl2⟩ :=
    updAt_exists (fun _ => drawMat amp fin rng (c + w) prev w) w1 jj (by omega)
  refine ⟨⟨z1, a1, b2, db1, w2, dw1⟩, ?_, by simpa using hal, by simpa using hzl,
    by simp; omega, by simpa using hdbl, by simp; omega, by simpa using hdwl⟩
  rw [initLayer, ha1]
  simp only [Option.some_bind]
  rw [hz1]
  simp only [Option.some_bind]
  rw [hb1]
  simp only [Option.some_bind]
  rw [hdb1]
  simp only [Option.some_bind]
  rw [drawVec?_eq amp fin rng c w hf]
  simp only [Option.some_bind]
  rw [hb2]
  simp only [Option.some_bind]
  rw [hw1]
  simp only [Option.some_bind]
  rw [hdw1]
  simp only [Option.some_bind]
  rw [drawMat?_eq amp fin rng (c + w) prev w hf]
  simp only [Option.some_bind]
  rw [hw2]
  simp only [Option.some_bind]

/-- Under in-bounds indices the whole `init` loop succeeds and preserves
the length of every outer container. -/
theorem initAux_exists (amp : ℚ) (fin : ℕ) (rng : ℕ → ℕ) (hf : fin ≠ 0) :
    ∀ (ws : List ℕ) (prev jj c : ℕ) (s : NetState),
      jj + ws.length < s.a.length → jj + ws.length ≤ s.z.length →
      jj + ws.length ≤ s.bias.length → jj + ws.length ≤ s.deltaBias.length →
      jj + ws.length ≤ s.weights.length → jj + ws.length ≤ s.deltaWeights.length →
      ∃ s1 c1, initAux amp fin rng prev ws jj c s = some (s1, c1)
        ∧ s1.a.length = s.a.length ∧ s1.z.length = s.z.length
        ∧ s1.bias.length = s.bias.length ∧ s1.deltaBias.length = s.deltaBias.length
        ∧ s1.weights.length = s.weights.length
        ∧ s1.deltaWeights.length = s.deltaWeights.length := by
  intro ws
  induction ws with
  | nil =>
    intro prev jj c s _ _ _ _ _ _
    exact ⟨s, c, rfl, rfl, rfl, rfl, rfl, rfl, rfl⟩
  | cons w ws ih =>
    intro prev jj c s ha hz hb hdb hw hdw
    simp only [List.length_cons] at ha hz hb hdb hw hdw
    obtain ⟨s1, h1, hal, hzl, hbl, hdbl, hwl, hdwl⟩ :=
      initLayer_exists amp fin rng hf jj prev w c s (by omega) (by omega) (by omega)
        (by omega) (by omega) (by omega)
    obtain ⟨s2, c2, h2, hal2, hzl2, hbl2, hdbl2, hwl2, hdwl2⟩ :=
      ih w (jj + 1) (c + w + prev * w) s1 (by omega) (by omega) (by omega) (by omega)
        (by omega) (by omega)
    refine ⟨s2, c2, ?_, by omega, by omega, by omega, by omega, by omega, by omega⟩
    rw [initAux, h1]
    exact h2

/-- C5: for every valid topology, positive amplitude and positive
finesse, `init` (from the fresh caller state) produces exactly the bias
rows `biasSpec` and weight matrices `weightsSpec` of consecutive
pseudo-random draws — each entry is `amplitude * (r mod finesse) /
finesse` for `r` the next raw value of the pseudo-random stream (the
per-layer draw order and stream positions are explicit in
`biasSpec`/`weightsSpec`/`drawVec`/`drawMat`, and the final counter is
`c + totalDraws`) — and every such entry lies in `[0, amplitude)` and is
a natural multiple of `amplitude / finesse`. -/
theorem c5_init_draws (amp : ℚ) (fin : ℕ) (rng : ℕ → ℕ) (c w0 w1 : ℕ) (rest : List ℕ)
    (hw : ∀ u ∈ w0 :: w1 :: rest, 0 < u) (hamp : 0 < amp) (hfin : 0 < fin) :
    ∃ s, init (w0 :: w1 :: rest) amp fin rng c (freshState (w0 :: w1 :: rest).length)
        = some (s, c + totalDraws w0 (w1 :: rest))
      ∧ s.bias = biasSpec amp fin rng w0 (w1 :: rest) c
      ∧ s.weights = weightsSpec amp fin rng w0 (w1 :: rest) c
      ∧ (∀ row ∈ s.bias, ∀ q ∈ row, ∃ k, q = drawQ amp fin (rng k))
      ∧ (∀ mat ∈ s.weights, ∀ row ∈ mat, ∀ q ∈ row, ∃ k, q = drawQ amp fin (rng k))
      ∧ (∀ row ∈ s.bias, ∀ q ∈ row,
          0 ≤ q ∧ q < amp ∧ ∃ m, m < fin ∧ q = (m : ℚ) * (amp / (fin : ℚ)))
      ∧ (∀ mat ∈ s.weights, ∀ row ∈ mat, ∀ q ∈ row,
          0 ≤ q ∧ q < amp ∧ ∃ m, m < fin ∧ q = (m : ℚ) * (amp / (fin : ℚ))) := by
  have hf : fin ≠ 0 := by omega
  refine ⟨_, init_fresh amp fin rng hf w0 (w1 :: rest) c, rfl, rfl,
    biasSpec_mem amp fin rng (w1 :: rest) w0 c,
    weightsSpec_mem amp fin rng (w1 :: rest) w0 c, ?_, ?_⟩
  · intro row hrow q hq
    obtain ⟨k, rfl⟩ := biasSpec_mem amp fin rng (w1 :: rest) w0 c row hrow q hq
    exact drawQ_bounds amp fin hamp hfin (rng k)
  · intro mat hmat row hrow q hq
    obtain ⟨k, rfl⟩ := weightsSpec_mem amp fin rng (w1 :: rest) w0 c mat hmat row hrow q hq
    exact drawQ_bounds amp fin hamp hfin (rng k)

/-- Witness for C5 at topology `[2, 1]`, amplitude 1, finesse 2. -/
theorem c5_witness :
    (∀ u ∈ [2, 1], 0 < u) ∧ (0 : ℚ) < 1 ∧ 0 < 2 ∧
    ∃ s, init [2, 1] 1 2 (fun k => k) 0 (freshState 2) = some (s, 0 + totalDraws 2 [1])
      ∧ s.bias = biasSpec 1 2 (fun k => k) 2 [1] 0
      ∧ s.weights = weightsSpec 1 2 (fun k => k) 2 [1] 0
      ∧ (∀ row ∈ s.bias, ∀ q ∈ row, ∃ k, q = drawQ 1 2 k)
      ∧ (∀ mat ∈ s.weights, ∀ row ∈ mat, ∀ q ∈ row, ∃ k, q = drawQ 1 2 k)
      ∧ (∀ row ∈ s.bias, ∀ q ∈ row,
          0 ≤ q ∧ q < 1 ∧ ∃ m : ℕ, m < 2 ∧ q = (m : ℚ) * ((1 : ℚ) / ((2 : ℕ) : ℚ)))
      ∧ (∀ mat ∈ s.weights, ∀ row ∈ mat, ∀ q ∈ row,
          0 ≤ q ∧ q < 1 ∧ ∃ m : ℕ, m < 2 ∧ q = (m : ℚ) * ((1 : ℚ) / ((2 : ℕ) : ℚ))) :=
  ⟨by decide, by norm_num, by decide,
    c5_init_draws 1 2 (fun k => k) 0 2 1 [] (by decide) (by norm_num) (by decide)⟩

/-- C6: for every valid topology (two or more entries, positive widths),
`init` from the fresh caller state produces containers satisfying the
Data Model shape invariants: `a` has one row per layer of length
`width(L)`; `z`, `bias`, `deltaBias` have one row per non-input layer of
length `width(L)`; `weights` and `deltaWeights` hold, for each adjacent
layer pair, a `width(L-1) × width(L)` matrix. -/
theorem c6_init_shapes (amp : ℚ) (fin : ℕ) (rng : ℕ → ℕ) (c w0 w1 : ℕ) (rest : List ℕ)
    (hw : ∀ u ∈ w0 :: w1 :: rest, 0 < u) (hfin : 0 < fin) :
    ∃ s cf, init (w0 :: w1 :: rest) amp fin rng c (freshState (w0 :: w1 :: rest).length)
        = some (s, cf)
      ∧ s.a.length = (w0 :: w1 :: rest).length
      ∧ (∀ i, i < (w0 :: w1 :: rest).length →
          (s.a.getD i []).length = (w0 :: w1 :: rest).getD i 0)
      ∧ s.z.length = (w1 :: rest).length
      ∧ (∀ i, i < (w1 :: rest).length → (s.z.getD i []).length = (w1 :: rest).getD i 0)
      ∧ s.bias.length = (w1 :: rest).length
      ∧ (∀ i, i < (w1 :: rest).length → (s.bias.getD i []).length = (w1 :: rest).getD i 0)
      ∧ s.deltaBias.length = (w1 :: rest).length
      ∧ (∀ i, i < (w1 :: rest).length →
          (s.deltaBias.getD i []).length = (w1 :: rest).getD i 0)
      ∧ s.weights.length = (w1 :: rest).length
      ∧ (∀ i, i < (w1 :: rest).length →
          (s.weights.getD i []).length = (w0 :: w1 :: rest).getD i 0)
      ∧ (∀ i, i < (w1 :: rest).length →
          ∀ row ∈ s.weights.getD i [], row.length = (w1 :: rest).getD i 0)
      ∧ s.deltaWeights.length = (w1 :: rest).length
      ∧ (∀ i, i < (w1 :: rest).length →
          (s.deltaWeights.getD i []).length = (w0 :: w1 :: rest).getD i 0)
      ∧ (∀ i, i < (w1 :: rest).length →
          ∀ row ∈ s.deltaWeights.getD i [], row.length = (w1 :: rest).getD i 0) := by
  have hf : fin ≠ 0 := by omega
  refine ⟨_, _, init_fresh amp fin rng hf w0 (w1 :: rest) c,
    by simp, ?_, by simp, ?_, ?_, ?_, by simp, ?_, ?_, ?_, ?_, ?_, ?_, ?_⟩
  · exact fun i hi => map_zerosRow_getD (w0 :: w1 :: rest) i hi
  · exact fun i hi => map_zerosRow_getD (w1 :: rest) i hi
  · exact biasSpec_length amp fin rng (w1 :: rest) w0 c
  · exact fun i hi => biasSpec_getD amp fin rng (w1 :: rest) w0 c i hi
  · exact fun i hi => map_zerosRow_getD (w1 :: rest) i hi
  · exact weightsSpec_length amp fin rng (w1 :: rest) w0 c
  · exact fun i hi => weightsSpec_getD_rows amp fin rng (w1 :: rest) w0 c i hi
  · exact fun i hi => weightsSpec_getD_cols amp fin rng (w1 :: rest) w0 c i hi
  · exact zeroMats_length (w1 :: rest) w0
  · exact fun i hi => zeroMats_getD_rows (w1 :: rest) w0 i hi
  · exact fun i hi => zeroMats_getD_cols (w1 :: rest) w0 i hi

/-- Witness for C6 at topology `[2, 3, 1]`. -/
theorem c6_witness :
    (∀ u ∈ [2, 3, 1], 0 < u) ∧ 0 < 1000 ∧
    ∃ s cf, init [2, 3, 1] 1 1000 (fun k => k) 0 (freshState 3) = some (s, cf)
      ∧ s.a.length = 3
      ∧ (∀ i, i < 3 → (s.a.getD i []).length = [2, 3, 1].getD i 0)
      ∧ s.z.length = 2
      ∧ (∀ i, i < 2 → (s.z.getD i []).length = [3, 1].getD i 0)
      ∧ s.bias.length = 2
      ∧ (∀ i, i < 2 → (s.bias.getD i []).length = [3, 1].getD i 0)
      ∧ s.deltaBias.length = 2
      ∧ (∀ i, i < 2 → (s.deltaBias.getD i []).length = [3, 1].getD i 0)
      ∧ s.weights.length = 2
      ∧ (∀ i, i < 2 → (s.weights.getD i []).length = [2, 3, 1].getD i 0)
      ∧ (∀ i, i < 2 → ∀ row ∈ s.weights.getD i [], row.length = [3, 1].getD i 0)
      ∧ s.deltaWeights.length = 2
      ∧ (∀ i, i < 2 → (s.deltaWeights.getD i []).length = [2, 3, 1].getD i 0)
      ∧ (∀ i, i < 2 → ∀ row ∈ s.deltaWeights.getD i [], row.length = [3, 1].getD i 0) :=
  ⟨by decide, by decide, c6_init_shapes 1 1000 (fun k => k) 0 2 3 [1] (by decide) (by decide)⟩

/-- C9: after `init` from the fresh caller state, every entry of
`deltaBias` and of `deltaWeights` is exactly zero — `init` resizes these
containers (value-initializing the new elements) but writes random draws
only into `bias` and `weights`. -/
theorem c9_init_zero_deltas (amp : ℚ) (fin : ℕ) (rng : ℕ → ℕ) (c w0 : ℕ) (rest : List ℕ)
    (hfin : 0 < fin) :
    ∃ s cf, init (w0 :: rest) amp fin rng c (freshState (w0 :: rest).length) = some (s, cf)
      ∧ (∀ row ∈ s.deltaBias, ∀ q ∈ row, q = 0)
      ∧ (∀ mat ∈ s.deltaWeights, ∀ row ∈ mat, ∀ q ∈ row, q = 0) := by
  have hf : fin ≠ 0 := by omega
  exact ⟨_, _, init_fresh amp fin rng hf w0 rest c,
    map_zerosRow_zero rest, zeroMats_zero rest w0⟩

/-- Witness for C9 at topology `[2, 2, 1]`. -/
theorem c9_witness :
    0 < 1000 ∧
    ∃ s cf, init [2, 2, 1] 1 1000 (fun k => k) 0 (freshState 3) = some (s, cf)
      ∧ (∀ row ∈ s.deltaBias, ∀ q ∈ row, q = 0)
      ∧ (∀ mat ∈ s.deltaWeights, ∀ row ∈ mat, ∀ q ∈ row, q = 0) :=
  ⟨by decide, c9_init_zero_deltas 1 1000 (fun k => k) 0 2 [2, 1] (by decide)⟩

/-- C10: `init` never resizes the outer containers it receives — under
the precondition that `a` has at least `topology.length` rows, the other
five containers at least `topology.length - 1` rows, and
`finesse ≥ 1`, every container access and every arithmetic operation of
`init` is well-defined (the `Option`-valued embedding, whose `none`
encodes an out-of-bounds access or a modulo by zero, returns `some`) and
the length of each of the six outer containers is unchanged. -/
theorem c10_init_frame (t : List ℕ) (amp : ℚ) (fin : ℕ) (rng : ℕ → ℕ) (c : ℕ) (s : NetState)
    (ha : t.length ≤ s.a.length) (hz : t.length - 1 ≤ s.z.length)
    (hb : t.length - 1 ≤ s.bias.length) (hdb : t.length - 1 ≤ s.deltaBias.length)
    (hw : t.length - 1 ≤ s.weights.length) (hdw : t.length - 1 ≤ s.deltaWeights.length)
    (hfin : 1 ≤ fin) :
    ∃ s1 c1, init t amp fin rng c s = some (s1, c1)
      ∧ s1.a.length = s.a.length ∧ s1.z.length = s.z.length
      ∧ s1.bias.length = s.bias.length ∧ s1.deltaBias.length = s.deltaBias.length
      ∧ s1.weights.length = s.weights.length
      ∧ s1.deltaWeights.length = s.deltaWeights.length := by
  match t with
  | [] => exact ⟨s, c, rfl, rfl, rfl, rfl, rfl, rfl, rfl⟩
  | w0 :: rest =>
    have hf : fin ≠ 0 := by omega
    simp only [List.length_cons, Nat.add_sub_cancel] at ha hz hb hdb hw hdw
    obtain ⟨a1, ha1, hal⟩ := updAt_exists (fun r => resizeQ r w0) s.a 0 (by omega)
    obtain ⟨s2, c2, h2, hal2, hzl2, hbl2, hdbl2, hwl2, hdwl2⟩ :=
      initAux_exists amp fin rng hf rest w0 0 c { s with a := a1 }
        (by simp; omega) (by simp; omega) (by simp; omega) (by simp; omega)
        (by simp; omega) (by simp; omega)
    simp only at hal2 hzl2 hbl2 hdbl2 hwl2 hdwl2
    refine ⟨s2, c2, ?_, by omega, ?_, ?_, ?_, ?_, ?_⟩
    · rw [init, ha1]
      simpa using h2
    · simpa using hzl2
    · simpa using hbl2
    · simpa using hdbl2
    · simpa using hwl2
    · simpa using hdwl2

/-- Witness for C10 on a state with one spare row in each container. -/
theorem c10_witness :
    (2 : ℕ) ≤ 3 ∧ (1 : ℕ) ≤ 2 ∧ (1 : ℕ) ≤ 1000 ∧
    ∃ s1 c1, init [1, 1] 1 1000 (fun k => k) 0
        ⟨[[], []], [[], [], []], [[], []], [[], []], [[], []], [[], []]⟩ = some (s1, c1)
      ∧ s1.a.length = 3 ∧ s1.z.length = 2
      ∧ s1.bias.length = 2 ∧ s1.deltaBias.length = 2
      ∧ s1.weights.length = 2 ∧ s1.deltaWeights.length = 2 :=
  ⟨by decide, by decide, by decide,
    c10_init_frame [1, 1] 1 1000 (fun k => k) 0
      ⟨[[], []], [[], [], []], [[], []], [[], []], [[], []], [[], []]⟩
      (by decide) (by decide) (by decide) (by decide) (by decide) (by decide) (by decide)⟩

/-- C7 counterexample: called with the invalid one-entry topology `[1]`,
`init` does not fail — it returns normally and mutates `a` (it resizes
`a[0]`), so it neither detects the violation nor avoids mutating state. -/
theorem c7_counterexample :
    init [1] 1 1000 (fun _ => 0) 0 (freshState 1)
      = some (⟨[], [[0]], [], [], [], []⟩, 0)
    ∧ (⟨[], [[0]], [], [], [], []⟩ : NetState) ≠ freshState 1 := by
  constructor
  · rfl
  · decide

/-- C7 amended: `init` performs no topology validation.  With an empty
topology it does nothing; with a one-entry topology it completes
normally, resizing only `a[0]`; a topology with non-positive widths (for
example `[0, 0]`) is also processed without any failure.  Topology
validity is a precondition the caller must uphold (the spec itself notes
the source does not validate it). -/
theorem c7_amended (w : ℕ) (amp : ℚ) (fin : ℕ) (rng : ℕ → ℕ) (c : ℕ) (s : NetState) :
    init [] amp fin rng c s = some (s, c)
    ∧ init [w] amp fin rng c s
        = (updAt (fun r => resizeQ r w) s.a 0).bind (fun a1 => some ({ s with a := a1 }, c))
    ∧ init [0, 0] 1 1000 (fun k => k) 0 (freshState 2) = some (freshState 2, 0) := by
  refine ⟨rfl, ?_, by decide⟩
  cases h : updAt (fun r => resizeQ r w) s.a 0 with
  | none => simp [init, h]
  | some a1 => simp [init, initAux, h]

theorem getD_map_range (f : ℕ → α) (w j : ℕ) (d : α) (h : j < w) :
    ((List.range w).map f).getD j d = f j := by
  simp [List.getD_eq_getElem?_getD, List.getElem?_map, List.getElem?_range, h]

theorem zipWith_getD (f : α → β → γ) :
    ∀ (xs : List α) (ys : List β) (i : ℕ) (d : γ) (dx : α) (dy : β),
      i < (List.zipWith f xs ys).length →
      (List.zipWith f xs ys).getD i d = f (xs.getD i dx) (ys.getD i dy) := by
  intro xs
  induction xs with
  | nil => intro ys i d dx dy h; simp at h
  | cons x xs ih =>
    intro ys i d dx dy h
    cases ys with
    | nil => simp at h
    | cons y ys =>
      match i with
      | 0 => rfl
      | n + 1 => simpa using ih ys n d dx dy (by simpa using h)

theorem zipW3_length (f : α → β → γ → δ) :
    ∀ (xs : List α) (ys : List β) (zs : List γ),
      (zipW3 f xs ys zs).length = min xs.length (min ys.length zs.length) := by
  intro xs
  induction xs with
  | nil => intro ys zs; simp [zipW3]
  | cons x xs ih =>
    intro ys zs
    cases ys with
    | nil => simp [zipW3]
    | cons y ys =>
      cases zs with
      | nil => simp [zipW3]
      | cons z zs => simp [zipW3, ih, Nat.succ_min_succ]

theorem zipW3_getD (f : α → β → γ → δ) :
    ∀ (xs : List α) (ys : List β) (zs : List γ) (i : ℕ) (d : δ) (dx : α) (dy : β) (dz : γ),
      i < (zipW3 f xs ys zs).length →
      (zipW3 f xs ys zs).getD i d = f (xs.getD i dx) (ys.getD i dy) (zs.getD i dz) := by
  intro xs
  induction xs with
  | nil => intro ys zs i d dx dy dz h; simp [zipW3] at h
  | cons x xs ih =>
    intro ys zs i d dx dy dz h
    cases ys with
    | nil => simp [zipW3] at h
    | cons y ys =>
      cases zs with
      | nil => simp [zipW3] at h
      | cons z zs =>
        match i with
        | 0 => rfl
        | n + 1 => simpa [zipW3] using ih ys zs n d dx dy dz (by simpa [zipW3] using h)

theorem getD_mem (xs : List α) (i : ℕ) (d : α) (h : i < xs.length) : xs.getD i d ∈ xs := by
  rw [List.getD_eq_getElem?_getD, List.getElem?_eq_getElem h]
  exact List.getElem_mem h

theorem getD_dropLast (xs : List α) (i : ℕ) (d : α) (h : i < xs.length - 1) :
    xs.dropLast.getD i d = xs.getD i d := by
  rw [List.getD_eq_getElem?_getD, List.getD_eq_getElem?_getD]
  rw [List.getElem?_eq_getElem (by simpa using h), List.getElem?_eq_getElem (by omega)]
  simp [List.getElem_dropLast]

theorem preActRow_length (w : ℕ) (b : List ℚ) (W : List (List ℚ)) (aPrev : List ℚ) :
    (preActRow w b W aPrev).length = w := by
  simp [preActRow]

theorem preActRow_getD (w : ℕ) (b : List ℚ) (W : List (List ℚ)) (aPrev : List ℚ)
    (j : ℕ) (h : j < w) :
    (preActRow w b W aPrev).getD j 0 = b.getD j 0 + colSum aPrev W j :=
  getD_map_range _ w j 0 h

theorem layerZip_facts :
    ∀ (ws : List ℕ) (bs : List (List ℚ)) (ms : List (List (List ℚ))) (ns : List String),
      bs.length = ws.length → ms.length = ws.length → ns.length = ws.length →
      (layerZip ws bs ms ns).length = ws.length
      ∧ (∀ i, i < ws.length →
          (layerZip ws bs ms ns).getD i layerDef
            = (ws.getD i 0, bs.getD i [], ms.getD i [], ns.getD i accumName))
      ∧ (layerZip ws bs ms ns).map (fun q => q.2.2.2) = ns := by
  intro ws
  induction ws with
  | nil =>
    intro bs ms ns hb hm hn
    simp only [List.length_nil, List.length_eq_zero] at hb hm hn
    subst hb; subst hm; subst hn
    exact ⟨rfl, fun i hi => by simp at hi, rfl⟩
  | cons w ws ih =>
    intro bs ms ns hb hm hn
    cases bs with
    | nil => simp at hb
    | cons b bs =>
      cases ms with
      | nil => simp at hm
      | cons m ms =>
        cases ns with
        | nil => simp at hn
        | cons nm ns =>
          simp only [List.length_cons, Nat.add_right_cancel_iff] at hb hm hn
          obtain ⟨hlen, hidx, hmap⟩ := ih bs ms ns hb hm hn
          refine ⟨by simp [layerZip, hlen], ?_, by simp [layerZip, hmap]⟩
          intro i hi
          match i with
          | 0 => rfl
          | n + 1 => simpa [layerZip] using hidx n (by simpa using hi)

/-- Characterization of a successful pass over the non-input layers:
each `z` row is the pre-activation of the previous post-activation row,
and each new `a` row applies the layer's activation function. -/
theorem forwardLayers_spec (acts : String → Option (ℚ → ℚ)) :
    ∀ (LZ : List (ℕ × List ℚ × List (List ℚ) × String)) (aPrev : List ℚ),
      (∀ q ∈ LZ, (acts q.2.2.2).isSome) →
      ∃ zs as1, forwardLayers acts LZ aPrev = .ok (zs, as1)
        ∧ zs.length = LZ.length ∧ as1.length = LZ.length
        ∧ ∀ i, i < LZ.length →
            zs.getD i [] = preActRow (LZ.getD i layerDef).1 (LZ.getD i layerDef).2.1
              (LZ.getD i layerDef).2.2.1 ((aPrev :: as1).getD i [])
            ∧ ∃ f, acts (LZ.getD i layerDef).2.2.2 = some f
                ∧ as1.getD i [] = (zs.getD i []).map f := by
  intro LZ
  induction LZ with
  | nil =>
    intro aPrev _
    exact ⟨[], [], rfl, rfl, rfl, fun i hi => by simp at hi⟩
  | cons q rest ih =>
    obtain ⟨w, b, W, nm⟩ := q
    intro aPrev hall
    have hnm : (acts nm).isSome := hall _ (List.mem_cons_self _ _)
    obtain ⟨f, hf⟩ := Option.isSome_iff_exists.mp hnm
    obtain ⟨zs, as1, hrec, hzl, hal, hidx⟩ :=
      ih ((preActRow w b W aPrev).map f) (fun q hq => hall q (List.mem_cons_of_mem _ hq))
    refine ⟨preActRow w b W aPrev :: zs, (preActRow w b W aPrev).map f :: as1, ?_,
      by simp [hzl], by simp [hal], ?_⟩
    · simp [forwardLayers, hf, hrec]
    · intro i hi
      match i with
      | 0 => exact ⟨rfl, f, hf, rfl⟩
      | n + 1 => simpa using hidx n (by simpa using hi)

/-- A single unrecognized activation name among the processed layers
makes the pass fail with `UnknownActivation`. -/
theorem forwardLayers_unknown (acts : String → Option (ℚ → ℚ)) :
    ∀ (LZ : List (ℕ × List ℚ × List (List ℚ) × String)) (aPrev : List ℚ),
      (∃ q ∈ LZ, acts q.2.2.2 = none) →
      forwardLayers acts LZ aPrev = .error .UnknownActivation := by
  intro LZ
  induction LZ with
  | nil => intro aPrev h; simp at h
  | cons q rest ih =>
    obtain ⟨w, b, W, nm⟩ := q
    intro aPrev h
    cases hnm : acts nm with
    | none => simp [forwardLayers, hnm]
    | some f =>
      obtain ⟨q2, hq2, hq2n⟩ := h
      rcases List.mem_cons.mp hq2 with rfl | hq2m
      · rw [hnm] at hq2n; cases hq2n
      · simp only [forwardLayers, hnm]
        rw [ih ((preActRow w b W aPrev).map f) ⟨q2, hq2m, hq2n⟩]

/-- C1: for every non-input layer `L` (in increasing order) and every
neuron `j` of `L`, a successful `forwardPropagation` stores
`z[L][j] = bias[L][j] + Σ over i of (a[L-1][i] * weights[L-1][i][j])`
(see `colSum`) and `a[L][j] = f_L(z[L][j])` where `f_L` is the layer's
selected activation function; the input row `a[0]` receives the input
vector, and no state other than `a` and `z` is modified (`bias`,
`deltaBias`, `weights` and `deltaWeights` are returned unchanged; the
input vector itself is passed by value and cannot be mutated). -/
theorem c1_forward_formula (acts : String → Option (ℚ → ℚ)) (w0 : ℕ) (rest : List ℕ)
    (input : List ℚ) (names : List String) (s : NetState)
    (hin : input.length = w0) (hb : s.bias.length = rest.length)
    (hwl : s.weights.length = rest.length) (hn : names.length = rest.length)
    (hacts : ∀ nm ∈ names, (acts nm).isSome) :
    ∃ s1, forwardPropagation acts (w0 :: rest) input names s = .ok s1
      ∧ s1.bias = s.bias ∧ s1.deltaBias = s.deltaBias
      ∧ s1.weights = s.weights ∧ s1.deltaWeights = s.deltaWeights
      ∧ s1.a.length = rest.length + 1 ∧ s1.z.length = rest.length
      ∧ s1.a.getD 0 [] = input
      ∧ (∀ L, L < rest.length →
          (∀ j, j < rest.getD L 0 →
            (s1.z.getD L []).getD j 0
              = (s.bias.getD L []).getD j 0 + colSum (s1.a.getD L []) (s.weights.getD L []) j)
          ∧ ∃ f, acts (names.getD L accumName) = some f
              ∧ s1.a.getD (L + 1) [] = (s1.z.getD L []).map f) := by
  obtain ⟨hlen, hidx, hmap⟩ := layerZip_facts rest s.bias s.weights names hb hwl hn
  have hall : ∀ q ∈ layerZip rest s.bias s.weights names, (acts q.2.2.2).isSome := by
    intro q hq
    apply hacts
    rw [← hmap]
    exact List.mem_map_of_mem _ hq
  obtain ⟨zs, as1, hfl, hzl, hal, hlayers⟩ :=
    forwardLayers_spec acts (layerZip rest s.bias s.weights names) input hall
  refine ⟨{ s with z := zs, a := input :: as1 }, ?_, rfl, rfl, rfl, rfl,
    by simp [hal.trans hlen], by simpa using hzl.trans hlen, rfl, ?_⟩
  · rw [forwardPropagation, if_pos hin, hfl]
  · intro L hL
    obtain ⟨hz, f, hf, ha⟩ := hlayers L (by omega)
    rw [hidx L hL] at hz hf
    constructor
    · intro j hj
      show (zs.getD L []).getD j 0 = _
      rw [hz]
      exact preActRow_getD _ _ _ _ j hj
    · exact ⟨f, hf, ha⟩

/-- Witness for C1: topology `[1, 1]`, identity activation, input `[2]`,
bias `[[3]]`, weight `[[[5]]]` — the run succeeds and satisfies the
formulas. -/
theorem c1_witness :
    ([(2 : ℚ)].length = 1) ∧
    (∀ nm ∈ [identityName], (actOf (fun x => x) nm).isSome) ∧
    ∃ s1, forwardPropagation (actOf (fun x => x)) [1, 1] [2] [identityName]
        ⟨[[0]], [[0], [0]], [[3]], [[0]], [[[5]]], [[[0]]]⟩ = .ok s1
      ∧ s1.bias = [[3]] ∧ s1.deltaBias = [[0]]
      ∧ s1.weights = [[[5]]] ∧ s1.deltaWeights = [[[0]]]
      ∧ s1.a.length = 2 ∧ s1.z.length = 1
      ∧ s1.a.getD 0 [] = [2]
      ∧ (∀ L, L < [1].length →
          (∀ j, j < [1].getD L 0 →
            (s1.z.getD L []).getD j 0
              = ([[(3 : ℚ)]].getD L []).getD j 0
                + colSum (s1.a.getD L []) ([[[(5 : ℚ)]]].getD L []) j)
          ∧ ∃ f, actOf (fun x => x) ([identityName].getD L accumName) = some f
              ∧ s1.a.getD (L + 1) [] = (s1.z.getD L []).map f) :=
  ⟨rfl, by decide,
    c1_forward_formula (actOf (fun x => x)) 1 [1] [2] [identityName]
      ⟨[[0]], [[0], [0]], [[3]], [[0]], [[[5]]], [[[0]]]⟩
      rfl rfl rfl rfl (by decide)⟩

/-- C8: a `forwardPropagation` call naming an activation function outside
the supported set fails with `UnknownActivation` rather than silently
falling back to a default, while omitting the activation-name parameter
(`forwardPropagationD`) selects the documented default `"sigmoid"`
(BPNN.h line 29) for every layer. -/
theorem c8_unknown_activation (σf : ℚ → ℚ) (w0 : ℕ) (rest : List ℕ) (input : List ℚ)
    (names : List String) (s : NetState)
    (hin : input.length = w0) (hb : s.bias.length = rest.length)
    (hwl : s.weights.length = rest.length) (hn : names.length = rest.length)
    (hbad : ∃ nm ∈ names, actOf σf nm = none) :
    forwardPropagation (actOf σf) (w0 :: rest) input names s = .error .UnknownActivation
    ∧ actOf σf DEFAULT_ACTIVATION_FUNCTION = some σf
    ∧ ∀ (t2 : List ℕ) (input2 : List ℚ) (s2 : NetState),
        forwardPropagationD σf t2 input2 s2
          = forwardPropagation (actOf σf) t2 input2
              (List.replicate (t2.length - 1) sigmoidName) s2 := by
  refine ⟨?_, rfl, fun t2 input2 s2 => rfl⟩
  obtain ⟨nm, hmem, hnone⟩ := hbad
  obtain ⟨hlen, hidx, hmap⟩ := layerZip_facts rest s.bias s.weights names hb hwl hn
  have hzip : ∃ q ∈ layerZip rest s.bias s.weights names, actOf σf q.2.2.2 = none := by
    have hm2 : nm ∈ (layerZip rest s.bias s.weights names).map (fun q => q.2.2.2) := by
      rw [hmap]; exact hmem
    obtain ⟨q, hq, hq2⟩ := List.mem_map.mp hm2
    exact ⟨q, hq, hq2 ▸ hnone⟩
  simp only [forwardPropagation, if_pos hin,
    forwardLayers_unknown (actOf σf) _ input hzip]

/-- Witness for C8: name `"relu"` on a `[1, 1]` network fails with
`UnknownActivation`. -/
theorem c8_witness :
    ([(0 : ℚ)].length = 1) ∧ (∃ nm ∈ [unknownName], actOf (fun x => x) nm = none) ∧
    forwardPropagation (actOf (fun x => x)) [1, 1] [0] [unknownName]
        ⟨[[0]], [[0], [0]], [[0]], [[0]], [[[0]]], [[[0]]]⟩ = .error .UnknownActivation
    ∧ actOf (fun x => x) DEFAULT_ACTIVATION_FUNCTION = some (fun x => x)
    ∧ ∀ (t2 : List ℕ) (input2 : List ℚ) (s2 : NetState),
        forwardPropagationD (fun x => x) t2 input2 s2
          = forwardPropagation (actOf (fun x => x)) t2 input2
              (List.replicate (t2.length - 1) sigmoidName) s2 :=
  ⟨rfl, ⟨unknownName, by simp, rfl⟩,
    c8_unknown_activation (fun x => x) 1 [1] [0] [unknownName]
      ⟨[[0]], [[0], [0]], [[0]], [[0]], [[[0]]], [[[0]]]⟩
      rfl rfl rfl rfl ⟨unknownName, by simp, rfl⟩⟩

theorem resolveActs_exists (table : String → Option (ℚ → ℚ)) :
    ∀ (ns : List String), (∀ nm ∈ ns, (table nm).isSome) →
      ∃ fs, resolveActs table ns = some fs ∧ fs.length = ns.length := by
  intro ns
  induction ns with
  | nil => intro _; exact ⟨[], rfl, rfl⟩
  | cons nm ns ih =>
    intro hall
    obtain ⟨f, hf⟩ := Option.isSome_iff_exists.mp (hall _ (List.mem_cons_self _ _))
    obtain ⟨fs, hfs, hlen⟩ := ih (fun x hx => hall x (List.mem_cons_of_mem _ hx))
    exact ⟨f :: fs, by simp [resolveActs, hf, hfs], by simp [hlen]⟩

/-- A successful accumulate-mode call (any learning type other than
`"online"` and `"batch"`) stores the blended deltas and changes nothing
else. -/
theorem backProp_accum_inv (derivs : String → Option (ℚ → ℚ)) (w0 : ℕ) (rest : List ℕ)
    (y : List ℚ) (lr mf : ℚ) (mode : String) (names : List String) (s s' : NetState)
    (hm1 : mode ≠ batchName) (hm2 : mode ≠ onlineName)
    (h : backPropagation derivs (w0 :: rest) y lr mf mode names s = .ok s') :
    y.length = rest.getLastD w0 ∧
    ∃ ds, resolveActs derivs names = some ds ∧
      s' = { s with
        deltaBias := List.zipWith (blendB mf lr) s.deltaBias (deltasOf ds y s),
        deltaWeights := zipW3 (blendW mf lr) s.deltaWeights s.a.dropLast (deltasOf ds y s) } := by
  rw [backPropagation] at h
  by_cases hy : y.length = rest.getLastD w0
  case neg => rw [if_neg hy] at h; cases h
  rw [if_pos hy] at h
  cases hres : resolveActs derivs names with
  | none =>
    simp only [hres] at h
    exact Except.noConfusion h
  | some ds =>
    simp only [hres, if_neg hm1, if_neg hm2] at h
    exact ⟨hy, ds, rfl, ((Except.ok.injEq _ _).mp h).symm⟩

/-- A successful `"online"` call applies the blended deltas to
`weights`/`bias` and stores them in `deltaWeights`/`deltaBias`. -/
theorem backProp_online_inv (derivs : String → Option (ℚ → ℚ)) (w0 : ℕ) (rest : List ℕ)
    (y : List ℚ) (lr mf : ℚ) (names : List String) (s s' : NetState)
    (h : backPropagation derivs (w0 :: rest) y lr mf onlineName names s = .ok s') :
    y.length = rest.getLastD w0 ∧
    ∃ ds, resolveActs derivs names = some ds ∧
      s' = { s with
        bias := addRows s.bias (List.zipWith (blendB mf lr) s.deltaBias (deltasOf ds y s)),
        deltaBias := List.zipWith (blendB mf lr) s.deltaBias (deltasOf ds y s),
        weights := addMats s.weights
          (zipW3 (blendW mf lr) s.deltaWeights s.a.dropLast (deltasOf ds y s)),
        deltaWeights := zipW3 (blendW mf lr) s.deltaWeights s.a.dropLast (deltasOf ds y s) } := by
  rw [backPropagation] at h
  by_cases hy : y.length = rest.getLastD w0
  case neg => rw [if_neg hy] at h; cases h
  rw [if_pos hy] at h
  cases hres : resolveActs derivs names with
  | none =>
    simp only [hres] at h
    exact Except.noConfusion h
  | some ds =>
    simp only [hres, if_neg (show onlineName ≠ batchName by decide), if_pos rfl] at h
    exact ⟨hy, ds, rfl, ((Except.ok.injEq _ _).mp h).symm⟩

/-- A successful `"batch"` call adds the currently stored deltas onto
`weights`/`bias` and recomputes nothing. -/
theorem backProp_batch_inv (derivs : String → Option (ℚ → ℚ)) (w0 : ℕ) (rest : List ℕ)
    (y : List ℚ) (lr mf : ℚ) (names : List String) (s s' : NetState)
    (h : backPropagation derivs (w0 :: rest) y lr mf batchName names s = .ok s') :
    y.length = rest.getLastD w0 ∧
    (∃ ds, resolveActs derivs names = some ds) ∧
    s' = { s with bias := addRows s.bias s.deltaBias,
                  weights := addMats s.weights s.deltaWeights } := by
  rw [backPropagation] at h
  by_cases hy : y.length = rest.getLastD w0
  case neg => rw [if_neg hy] at h; cases h
  rw [if_pos hy] at h
  cases hres : resolveActs derivs names with
  | none =>
    simp only [hres] at h
    exact Except.noConfusion h
  | some ds =>
    simp only [hres, if_pos rfl] at h
    exact ⟨hy, ⟨ds, rfl⟩, ((Except.ok.injEq _ _).mp h).symm⟩

/-- Entry-wise reading of the blended delta containers. -/
theorem blend_entries (mf lr : ℚ) (dB : List (List ℚ)) (dW : List (List (List ℚ)))
    (aPrevs D : List (List ℚ)) :
    (∀ L j, L < (List.zipWith (blendB mf lr) dB D).length →
      j < ((List.zipWith (blendB mf lr) dB D).getD L []).length →
      ((List.zipWith (blendB mf lr) dB D).getD L []).getD j 0
        = mf * (dB.getD L []).getD j 0 + lr * (D.getD L []).getD j 0)
    ∧ (∀ L i j, L < (zipW3 (blendW mf lr) dW aPrevs D).length →
      i < ((zipW3 (blendW mf lr) dW aPrevs D).getD L []).length →
      j < (((zipW3 (blendW mf lr) dW aPrevs D).getD L []).getD i []).length →
      (((zipW3 (blendW mf lr) dW aPrevs D).getD L []).getD i []).getD j 0
        = mf * ((dW.getD L []).getD i []).getD j 0
          + lr * ((D.getD L []).getD j 0 * (aPrevs.getD L []).getD i 0)) := by
  constructor
  · intro L j hL hj
    rw [zipWith_getD (blendB mf lr) dB D L [] [] [] hL] at hj ⊢
    rw [blendB] at hj ⊢
    exact zipWith_getD _ _ _ j 0 0 0 hj
  · intro L i j hL hi hj
    rw [zipW3_getD (blendW mf lr) dW aPrevs D L [] [] [] [] hL] at hi hj ⊢
    rw [blendW] at hi hj ⊢
    rw [zipWith_getD _ _ _ i [] [] 0 hi] at hj ⊢
    exact zipWith_getD _ _ _ j 0 0 0 hj

/-- C2: on every `backPropagation` call that computes updates (any
learning type other than `"batch"`, which flushes previously stored
deltas instead), each stored pending update satisfies
`new_delta = momentumFactor * old_delta + learningRate * gradient`, with
`gradient_w = delta[L][j] * a[L-1][i]` for the weight entry `(i, j)` and
`gradient_b = delta[L][j]` for the bias entry `j`, where `old_delta` is
the value previously stored in `deltaWeights`/`deltaBias` — the same
blending formula for weight and bias deltas. -/
theorem c2_blend_formula (derivs : String → Option (ℚ → ℚ)) (w0 : ℕ) (rest : List ℕ)
    (y : List ℚ) (lr mf : ℚ) (mode : String) (names : List String) (s s' : NetState)
    (hmode : mode ≠ batchName)
    (h : backPropagation derivs (w0 :: rest) y lr mf mode names s = .ok s') :
    ∃ ds, resolveActs derivs names = some ds ∧
      (∀ L j, L < s'.deltaBias.length → j < (s'.deltaBias.getD L []).length →
        (s'.deltaBias.getD L []).getD j 0
          = mf * (s.deltaBias.getD L []).getD j 0
            + lr * ((deltasOf ds y s).getD L []).getD j 0)
      ∧ (∀ L i j, L < s'.deltaWeights.length →
          i < (s'.deltaWeights.getD L []).length →
          j < ((s'.deltaWeights.getD L []).getD i []).length →
          ((s'.deltaWeights.getD L []).getD i []).getD j 0
            = mf * ((s.deltaWeights.getD L []).getD i []).getD j 0
              + lr * (((deltasOf ds y s).getD L []).getD j 0
                  * (s.a.dropLast.getD L []).getD i 0)) := by
  by_cases hon : mode = onlineName
  · subst hon
    obtain ⟨hy, ds, hres, rfl⟩ := backProp_online_inv derivs w0 rest y lr mf names s s' h
    exact ⟨ds, hres,
      (blend_entries mf lr s.deltaBias s.deltaWeights s.a.dropLast (deltasOf ds y s)).1,
      (blend_entries mf lr s.deltaBias s.deltaWeights s.a.dropLast (deltasOf ds y s)).2⟩
  · obtain ⟨hy, ds, hres, rfl⟩ := backProp_accum_inv derivs w0 rest y lr mf mode names s s'
      hmode hon h
    exact ⟨ds, hres,
      (blend_entries mf lr s.deltaBias s.deltaWeights s.a.dropLast (deltasOf ds y s)).1,
      (blend_entries mf lr s.deltaBias s.deltaWeights s.a.dropLast (deltasOf ds y s)).2⟩

/-- C3: every learning-type string other than `"online"` and `"batch"`
(the empty string included) selects the accumulate-only path — not an
error: the call succeeds, stores the momentum-blended deltas into
`deltaWeights`/`deltaBias`, and leaves `weights`, `bias` (and `z`, `a`)
exactly unchanged. -/
theorem c3_accumulate_only (derivs : String → Option (ℚ → ℚ)) (w0 : ℕ) (rest : List ℕ)
    (y : List ℚ) (lr mf : ℚ) (mode : String) (names : List String) (s : NetState)
    (hm1 : mode ≠ onlineName) (hm2 : mode ≠ batchName)
    (hy : y.length = rest.getLastD w0)
    (hacts : ∀ nm ∈ names, (derivs nm).isSome) :
    ∃ ds, resolveActs derivs names = some ds ∧
      backPropagation derivs (w0 :: rest) y lr mf mode names s
        = .ok { s with
            deltaBias := List.zipWith (blendB mf lr) s.deltaBias (deltasOf ds y s),
            deltaWeights := zipW3 (blendW mf lr) s.deltaWeights s.a.dropLast (deltasOf ds y s) } := by
  obtain ⟨ds, hres, _⟩ := resolveActs_exists derivs names hacts
  refine ⟨ds, hres, ?_⟩
  rw [backPropagation, if_pos hy]
  simp only [hres, if_neg hm2, if_neg hm1]

theorem zipWith_mem (f : α → β → γ) :
    ∀ (xs : List α) (ys : List β) (z : γ), z ∈ List.zipWith f xs ys →
      ∃ a ∈ xs, ∃ b ∈ ys, z = f a b := by
  intro xs
  induction xs with
  | nil => intro ys z h; simp at h
  | cons x xs ih =>
    intro ys z h
    cases ys with
    | nil => simp at h
    | cons y ys =>
      rcases List.mem_cons.mp h with rfl | h2
      · exact ⟨x, List.mem_cons_self _ _, y, List.mem_cons_self _ _, rfl⟩
      · obtain ⟨a, ha, b, hb, rfl⟩ := ih ys z h2
        exact ⟨a, List.mem_cons_of_mem _ ha, b, List.mem_cons_of_mem _ hb, rfl⟩

theorem blendB_length (mf lr : ℚ) (a b : List ℚ) :
    (blendB mf lr a b).length = min a.length b.length := by
  simp [blendB]

theorem blendW_length (mf lr : ℚ) (old : List (List ℚ)) (ap dl : List ℚ) :
    (blendW mf lr old ap dl).length = min old.length ap.length := by
  simp [blendW]

/-- With zero momentum a blended bias-delta row depends on the previous
delta row only through its length. -/
theorem blendB_zero_congr (lr : ℚ) :
    ∀ (old old2 dl : List ℚ), old.length = old2.length →
      blendB 0 lr old dl = blendB 0 lr old2 dl := by
  intro old
  induction old with
  | nil =>
    intro old2 dl h
    cases old2 with
    | nil => rfl
    | cons _ _ => simp at h
  | cons o old ih =>
    intro old2 dl h
    cases old2 with
    | nil => simp at h
    | cons o2 old2 =>
      cases dl with
      | nil => rfl
      | cons d dl =>
        show (0 * o + lr * d) :: blendB 0 lr old dl = (0 * o2 + lr * d) :: blendB 0 lr old2 dl
        rw [ih old2 dl (by simpa using h), zero_mul, zero_mul]

/-- With zero momentum a blended weight-delta row depends on the previous
delta row only through its length. -/
theorem blendW_row_zero_congr (lr ai : ℚ) :
    ∀ (r r2 dl : List ℚ), r.length = r2.length →
      List.zipWith (fun o dj => 0 * o + lr * (dj * ai)) r dl
        = List.zipWith (fun o dj => 0 * o + lr * (dj * ai)) r2 dl := by
  intro r
  induction r with
  | nil =>
    intro r2 dl h
    cases r2 with
    | nil => rfl
    | cons _ _ => simp at h
  | cons o r ih =>
    intro r2 dl h
    cases r2 with
    | nil => simp at h
    | cons o2 r2 =>
      cases dl with
      | nil => rfl
      | cons d dl =>
        show (0 * o + lr * (d * ai)) :: _ = (0 * o2 + lr * (d * ai)) :: _
        rw [ih r2 dl (by simpa using h), zero_mul, zero_mul]

/-- With zero momentum a blended weight-delta matrix depends on the
previous delta matrix only through its shape. -/
theorem blendW_zero_congr (lr : ℚ) :
    ∀ (old old2 : List (List ℚ)) (aPrev dl : List ℚ),
      old.length = old2.length →
      (∀ i, i < old.length → (old.getD i []).length = (old2.getD i []).length) →
      blendW 0 lr old aPrev dl = blendW 0 lr old2 aPrev dl := by
  intro old
  induction old with
  | nil =>
    intro old2 aPrev dl h _
    cases old2 with
    | nil => rfl
    | cons _ _ => simp at h
  | cons r old ih =>
    intro old2 aPrev dl h hrows
    cases old2 with
    | nil => simp at h
    | cons r2 old2 =>
      cases aPrev with
      | nil => rfl
      | cons ai aPrev =>
        show List.zipWith _ r dl :: blendW 0 lr old aPrev dl
          = List.zipWith _ r2 dl :: blendW 0 lr old2 aPrev dl
        rw [blendW_row_zero_congr lr ai r r2 dl (by simpa using hrows 0 (by simp)),
          ih old2 aPrev dl (by simpa using h)
            (fun i hi => by simpa using hrows (i + 1) (by simpa using hi))]

theorem outDelta_length (aOut y zRow : List ℚ) (d : ℚ → ℚ) :
    (outDelta aOut y zRow d).length = zRow.length := by
  simp [outDelta]

theorem hiddenDelta_length (dNext : List ℚ) (W : List (List ℚ)) (zRow : List ℚ) (d : ℚ → ℚ) :
    (hiddenDelta dNext W zRow d).length = zRow.length := by
  simp [hiddenDelta]

/-- The error-signal list has one row per non-input layer, of the length
of that layer's `z` row. -/
theorem computeDeltas_shape (aOut y : List ℚ) :
    ∀ (dzs : List ((ℚ → ℚ) × List ℚ)) (Ws : List (List (List ℚ))),
      (computeDeltas aOut y dzs Ws).length = dzs.length ∧
      ∀ i, i < dzs.length →
        ((computeDeltas aOut y dzs Ws).getD i []).length = (dzs.getD i dzDef).2.length := by
  intro dzs
  induction dzs with
  | nil => intro Ws; exact ⟨rfl, fun i hi => by simp at hi⟩
  | cons dz dzs ih =>
    obtain ⟨d, zr⟩ := dz
    intro Ws
    cases dzs with
    | nil =>
      refine ⟨rfl, ?_⟩
      intro i hi
      match i with
      | 0 => simpa [computeDeltas] using outDelta_length aOut y zr d
      | n + 1 => simp at hi
    | cons dz2 dzs2 =>
      obtain ⟨hlen, hrows⟩ := ih Ws.tail
      refine ⟨by simpa [computeDeltas] using hlen, ?_⟩
      intro i hi
      match i with
      | 0 => simpa [computeDeltas] using hiddenDelta_length _ _ zr d
      | n + 1 => simpa [computeDeltas] using hrows n (by simpa using hi)

theorem resolveActs_length (table : String → Option (ℚ → ℚ)) :
    ∀ (ns : List String) (fs : List (ℚ → ℚ)),
      resolveActs table ns = some fs → fs.length = ns.length := by
  intro ns
  induction ns with
  | nil => intro fs h; cases h; rfl
  | cons nm ns ih =>
    intro fs h
    rw [resolveActs] at h
    cases h1 : table nm with
    | none => rw [h1] at h; cases h
    | some f =>
      rw [h1] at h
      cases h2 : resolveActs table ns with
      | none => rw [h2] at h; cases h
      | some fs2 =>
        rw [h2] at h
        cases h
        simp [ih fs2 h2]

/-- Shape of the error signals of one backward pass. -/
theorem deltasOf_shape (ds : List (ℚ → ℚ)) (y : List ℚ) (s : NetState)
    (rest : List ℕ) (hz : rowsShape rest s.z) (hds : ds.length = rest.length) :
    (deltasOf ds y s).length = rest.length ∧
    ∀ i, i < rest.length → ((deltasOf ds y s).getD i []).length = rest.getD i 0 := by
  obtain ⟨hlen, hrows⟩ :=
    computeDeltas_shape (s.a.getLastD []) y (List.zip ds s.z) (s.weights.drop 1)
  have hzl : (List.zip ds s.z).length = rest.length := by
    simp [List.length_zip, hds, hz.1]
  constructor
  · rw [deltasOf, hlen, hzl]
  · intro i hi
    have h2 : ((List.zip ds s.z).getD i dzDef).2.length = rest.getD i 0 := by
      have : (List.zip ds s.z).getD i dzDef = (ds.getD i dzDef.1, s.z.getD i dzDef.2) :=
        zipWith_getD Prod.mk ds s.z i dzDef dzDef.1 dzDef.2
          (by simp only [List.length_zipWith, hds, hz.1, min_self]; exact hi)
      rw [this]
      exact hz.2 i hi
    rw [deltasOf, hrows i (by omega), h2]

/-- Shapes of a successful pass over the non-input layers. -/
theorem forwardLayers_ok_shape (acts : String → Option (ℚ → ℚ)) :
    ∀ (LZ : List (ℕ × List ℚ × List (List ℚ) × String)) (aPrev : List ℚ)
      (zs as1 : List (List ℚ)),
      forwardLayers acts LZ aPrev = .ok (zs, as1) →
      zs.length = LZ.length ∧ as1.length = LZ.length ∧
      ∀ i, i < LZ.length → (zs.getD i []).length = (LZ.getD i layerDef).1
        ∧ (as1.getD i []).length = (LZ.getD i layerDef).1 := by
  intro LZ
  induction LZ with
  | nil =>
    intro aPrev zs as1 h
    rw [forwardLayers] at h
    cases h
    exact ⟨rfl, rfl, fun i hi => by simp at hi⟩
  | cons q rest ih =>
    obtain ⟨w, b, W, nm⟩ := q
    intro aPrev zs as1 h
    rw [forwardLayers] at h
    cases hnm : acts nm with
    | none => rw [hnm] at h; cases h
    | some f =>
      rw [hnm] at h
      simp only at h
      cases hrec : forwardLayers acts rest ((preActRow w b W aPrev).map f) with
      | error e => rw [hrec] at h; cases h
      | ok p =>
        obtain ⟨zs2, as2⟩ := p
        rw [hrec] at h
        cases h
        obtain ⟨hl1, hl2, hrows⟩ := ih ((preActRow w b W aPrev).map f) zs2 as2 hrec
        refine ⟨by simp [hl1], by simp [hl2], ?_⟩
        intro i hi
        match i with
        | 0 => simp [preActRow_length]
        | n + 1 => simpa using hrows n (by simpa using hi)

/-- Frame facts of a successful forward pass: only `z` and `a` change,
and the Data Model shapes are preserved. -/
theorem forward_frame_good (acts : String → Option (ℚ → ℚ)) (w0 : ℕ) (rest : List ℕ)
    (input : List ℚ) (names : List String) (s s1 : NetState)
    (hg : goodState w0 rest s) (hn : names.length = rest.length)
    (h : forwardPropagation acts (w0 :: rest) input names s = .ok s1) :
    goodState w0 rest s1 ∧ s1.bias = s.bias ∧ s1.weights = s.weights ∧
    s1.deltaBias = s.deltaBias ∧ s1.deltaWeights = s.deltaWeights := by
  obtain ⟨hgz, hga, hgb, hgdb, hgw, hgdw⟩ := hg
  rw [forwardPropagation] at h
  by_cases hin : input.length = w0
  case neg => rw [if_neg hin] at h; cases h
  rw [if_pos hin] at h
  cases hfl : forwardLayers acts (layerZip rest s.bias s.weights names) input with
  | error e => rw [hfl] at h; cases h
  | ok p =>
    obtain ⟨zs, as1⟩ := p
    rw [hfl] at h
    cases h
    obtain ⟨hzipl, hzipidx, _⟩ := layerZip_facts rest s.bias s.weights names hgb.1 hgw.1 hn
    obtain ⟨hl1, hl2, hrows⟩ := forwardLayers_ok_shape acts _ input zs as1 hfl
    have hz1 : rowsShape rest zs := by
      refine ⟨hl1.trans hzipl, ?_⟩
      intro i hi
      rw [(hrows i (by omega)).1, hzipidx i hi]
    have ha1 : rowsShape (w0 :: rest) (input :: as1) := by
      refine ⟨by simp [hl2.trans hzipl], ?_⟩
      intro i hi
      match i with
      | 0 => simpa using hin
      | n + 1 =>
        have := (hrows n (by simpa [hzipl] using hi)).2
        rw [hzipidx n (by simpa using hi)] at this
        simpa using this
    exact ⟨⟨hz1, ha1, hgb, hgdb, hgw, hgdw⟩, rfl, rfl, rfl, rfl⟩

/-- The forward pass is a function of the topology, input, names, biases
and weights alone: two states agreeing on `bias` and `weights` produce
the same `z` and `a`. -/
theorem forward_det (acts : String → Option (ℚ → ℚ)) (w0 : ℕ) (rest : List ℕ)
    (input : List ℚ) (names : List String) (s r s1 r1 : NetState)
    (hb : s.bias = r.bias) (hw : s.weights = r.weights)
    (hs : forwardPropagation acts (w0 :: rest) input names s = .ok s1)
    (hr : forwardPropagation acts (w0 :: rest) input names r = .ok r1) :
    s1.z = r1.z ∧ s1.a = r1.a := by
  rw [forwardPropagation] at hs hr
  by_cases hin : input.length = w0
  case neg => rw [if_neg hin] at hs; cases hs
  rw [if_pos hin] at hs hr
  rw [hb, hw] at hs
  cases hfl : forwardLayers acts (layerZip rest r.bias r.weights names) input with
  | error e => rw [hfl] at hs; cases hs
  | ok p =>
    obtain ⟨zs, as1⟩ := p
    rw [hfl] at hs hr
    cases hs
    cases hr
    exact ⟨rfl, rfl⟩

/-- A successful accumulate-mode backward pass preserves the Data Model
shapes and leaves everything but the delta containers unchanged. -/
theorem backProp_accum_good (derivs : String → Option (ℚ → ℚ)) (w0 : ℕ) (rest : List ℕ)
    (y : List ℚ) (lr mf : ℚ) (mode : String) (names : List String) (s s' : NetState)
    (hg : goodState w0 rest s) (hn : names.length = rest.length)
    (hm1 : mode ≠ batchName) (hm2 : mode ≠ onlineName)
    (h : backPropagation derivs (w0 :: rest) y lr mf mode names s = .ok s') :
    goodState w0 rest s' ∧ s'.bias = s.bias ∧ s'.weights = s.weights ∧
    s'.z = s.z ∧ s'.a = s.a := by
  obtain ⟨hgz, hga, hgb, hgdb, hgw, hgdw⟩ := hg
  obtain ⟨hy, ds, hres, rfl⟩ :=
    backProp_accum_inv derivs w0 rest y lr mf mode names s s' hm1 hm2 h
  have hdsl : ds.length = rest.length := (resolveActs_length derivs names ds hres).trans hn
  obtain ⟨hDl, hDrows⟩ := deltasOf_shape ds y s rest hgz hdsl
  have hnDB : rowsShape rest (List.zipWith (blendB mf lr) s.deltaBias (deltasOf ds y s)) := by
    constructor
    · simp [List.length_zipWith, hgdb.1, hDl]
    · intro i hi
      have hbound : i < (List.zipWith (blendB mf lr) s.deltaBias (deltasOf ds y s)).length := by
        simp only [List.length_zipWith, hgdb.1, hDl, min_self]
        exact hi
      rw [zipWith_getD (blendB mf lr) s.deltaBias (deltasOf ds y s) i [] [] [] hbound,
        blendB_length, hgdb.2 i hi, hDrows i hi, min_self]
  have hnDW : matsShape (w0 :: rest) rest
      (zipW3 (blendW mf lr) s.deltaWeights s.a.dropLast (deltasOf ds y s)) := by
    constructor
    · simp [zipW3_length, hgdw.1, hDl, List.length_dropLast, hga.1]
    · intro L hL
      have hbound : L < (zipW3 (blendW mf lr) s.deltaWeights s.a.dropLast
          (deltasOf ds y s)).length := by
        simp only [zipW3_length, hgdw.1, hDl, List.length_dropLast, hga.1,
          List.length_cons, Nat.add_sub_cancel, min_self]
        exact hL
      rw [zipW3_getD (blendW mf lr) s.deltaWeights s.a.dropLast (deltasOf ds y s)
        L [] [] [] [] hbound]
      have hLa : L < s.a.length - 1 := by
        rw [hga.1]
        simpa using hL
      have haP : (s.a.dropLast.getD L []).length = (w0 :: rest).getD L 0 := by
        rw [getD_dropLast s.a L [] hLa]
        exact hga.2 L (by simp; omega)
      constructor
      · rw [blendW_length, (hgdw.2 L hL).1, haP]
        simp
      · intro row hrow
        rw [blendW] at hrow
        obtain ⟨oldRow, hold, ai, hai, rfl⟩ := zipWith_mem _ _ _ _ hrow
        rw [List.length_zipWith, (hgdw.2 L hL).2 oldRow hold, hDrows L hL, min_self]
  exact ⟨⟨hgz, hga, hgb, hnDB, hgw, hnDW⟩, rfl, rfl, rfl, rfl⟩

/-- One accumulate-mode training step preserves shapes, `bias` and
`weights`. -/
theorem trainStep_accum_frame (acts derivs : String → Option (ℚ → ℚ)) (w0 : ℕ)
    (rest : List ℕ) (names : List String) (lr mf : ℚ) (ex : List ℚ × List ℚ)
    (s s1 : NetState) (hg : goodState w0 rest s) (hn : names.length = rest.length)
    (h : trainStep acts derivs (w0 :: rest) names lr mf accumName ex s = .ok s1) :
    goodState w0 rest s1 ∧ s1.bias = s.bias ∧ s1.weights = s.weights := by
  rw [trainStep] at h
  cases hf : forwardPropagation acts (w0 :: rest) ex.1 names s with
  | error e => rw [hf] at h; cases h
  | ok sf =>
    rw [hf] at h
    obtain ⟨hgf, hfb, hfw, _, _⟩ := forward_frame_good acts w0 rest ex.1 names s sf hg hn hf
    obtain ⟨hgs1, hb1, hw1, _, _⟩ := backProp_accum_good derivs w0 rest ex.2 lr mf accumName
      names sf s1 hgf hn (by decide) (by decide) h
    exact ⟨hgs1, hb1.trans hfb, hw1.trans hfw⟩

/-- A whole accumulate-mode run preserves shapes, `bias` and `weights`. -/
theorem runSteps_accum_frame (acts derivs : String → Option (ℚ → ℚ)) (w0 : ℕ)
    (rest : List ℕ) (names : List String) (lr mf : ℚ) :
    ∀ (exs : List (List ℚ × List ℚ)) (s0 sE : NetState),
      goodState w0 rest s0 → names.length = rest.length →
      runSteps acts derivs (w0 :: rest) names lr mf accumName exs s0 = .ok sE →
      goodState w0 rest sE ∧ sE.bias = s0.bias ∧ sE.weights = s0.weights := by
  intro exs
  induction exs with
  | nil =>
    intro s0 sE hg hn h
    simp only [runSteps] at h
    cases h
    exact ⟨hg, rfl, rfl⟩
  | cons ex exs ih =>
    intro s0 sE hg hn h
    simp only [runSteps] at h
    cases hts : trainStep acts derivs (w0 :: rest) names lr mf accumName ex s0 with
    | error e => rw [hts] at h; cases h
    | ok s1 =>
      rw [hts] at h
      obtain ⟨hg1, hb1, hw1⟩ :=
        trainStep_accum_frame acts derivs w0 rest names lr mf ex s0 s1 hg hn hts
      obtain ⟨hgE, hbe, hwe⟩ := ih s1 sE hg1 hn h
      exact ⟨hgE, hbe.trans hb1, hwe.trans hw1⟩

theorem runSteps_append (acts derivs : String → Option (ℚ → ℚ)) (t : List ℕ)
    (names : List String) (lr mf : ℚ) (mode : String) :
    ∀ (exs : List (List ℚ × List ℚ)) (ex : List ℚ × List ℚ) (s0 sE : NetState),
      runSteps acts derivs t names lr mf mode (exs ++ [ex]) s0 = .ok sE →
      ∃ sMid, runSteps acts derivs t names lr mf mode exs s0 = .ok sMid
        ∧ trainStep acts derivs t names lr mf mode ex sMid = .ok sE := by
  intro exs
  induction exs with
  | nil =>
    intro ex s0 sE h
    simp only [List.nil_append] at h
    simp only [runSteps] at h
    cases hts : trainStep acts derivs t names lr mf mode ex s0 with
    | error e => rw [hts] at h; cases h
    | ok s1 =>
      rw [hts] at h
      simp only [runSteps] at h
      cases h
      exact ⟨s0, rfl, hts⟩
  | cons e2 exs ih =>
    intro ex s0 sE h
    simp only [List.cons_append] at h
    simp only [runSteps] at h
    cases hts : trainStep acts derivs t names lr mf mode e2 s0 with
    | error e => rw [hts] at h; cases h
    | ok s1 =>
      rw [hts] at h
      obtain ⟨sMid, h1, h2⟩ := ih ex s1 sE h
      exact ⟨sMid, by simp only [runSteps, hts]; exact h1, h2⟩

/-- With zero momentum the whole blended bias-delta container depends on
the previously stored container only through its shape. -/
theorem zip_blendB_zero_congr (lr : ℚ) (rest : List ℕ) (A B D : List (List ℚ))
    (hA : rowsShape rest A) (hB : rowsShape rest B) :
    List.zipWith (blendB 0 lr) A D = List.zipWith (blendB 0 lr) B D := by
  apply List.ext_getElem
  · simp [List.length_zipWith, hA.1, hB.1]
  · intro i h1 h2
    rw [← List.getD_eq_getElem _ [] h1, ← List.getD_eq_getElem _ [] h2]
    rw [zipWith_getD (blendB 0 lr) A D i [] [] [] h1,
      zipWith_getD (blendB 0 lr) B D i [] [] [] h2]
    apply blendB_zero_congr
    have hi : i < rest.length := by
      rw [List.length_zipWith, hA.1] at h1
      omega
    rw [hA.2 i hi, hB.2 i hi]

/-- With zero momentum the whole blended weight-delta container depends
on the previously stored container only through its shape. -/
theorem zip_blendW_zero_congr (lr : ℚ) (w0 : ℕ) (rest : List ℕ)
    (A B : List (List (List ℚ))) (P D : List (List ℚ))
    (hA : matsShape (w0 :: rest) rest A) (hB : matsShape (w0 :: rest) rest B) :
    zipW3 (blendW 0 lr) A P D = zipW3 (blendW 0 lr) B P D := by
  apply List.ext_getElem
  · simp [zipW3_length, hA.1, hB.1]
  · intro L h1 h2
    rw [← List.getD_eq_getElem _ [] h1, ← List.getD_eq_getElem _ [] h2]
    rw [zipW3_getD (blendW 0 lr) A P D L [] [] [] [] h1,
      zipW3_getD (blendW 0 lr) B P D L [] [] [] [] h2]
    have hL : L < rest.length := by
      rw [zipW3_length, hA.1] at h1
      omega
    apply blendW_zero_congr
    · rw [(hA.2 L hL).1, (hB.2 L hL).1]
    · intro i hi
      have hiB : i < (B.getD L []).length := by
        rw [(hB.2 L hL).1]
        rw [(hA.2 L hL).1] at hi
        exact hi
      rw [(hA.2 L hL).2 _ (getD_mem _ i [] hi), (hB.2 L hL).2 _ (getD_mem _ i [] hiB)]

/-- C4 counterexample: with zero momentum, on the `[1, 1]` identity
network started from all-zero parameters, accumulating the two examples
`([1],[1])`, `([1],[3])` with the empty learning type and flushing once
with `"batch"` yields final weight `-3`, whereas applying the two online
updates sequentially yields `-6` — the two schedules do NOT produce the
same final weights, because a zero-momentum accumulate call overwrites
(rather than adds to) the stored deltas. -/
theorem c4_counterexample :
    weightsOf cxBatch = [[[-3]]] ∧ weightsOf cxOnline = [[[-6]]]
    ∧ weightsOf cxBatch ≠ weightsOf cxOnline := by
  refine ⟨?_, ?_, ?_⟩ <;>
    simp [cxBatch, cxOnline, cxS0, cxExs, weightsOf, runSteps, trainStep,
      forwardPropagation, layerZip, forwardLayers, preActRow, colSum, actOf, actDerivOf,
      identityName, sigmoidName, accumName, batchName, onlineName, backPropagation,
      resolveActs, deltasOf, computeDeltas, outDelta, hiddenDelta, backSum, blendB, blendW,
      zipW3, addRows, addMats, addV, List.range_succ, List.getLastD] <;>
    norm_num

/-- C4 amended: with zero momentum, a mode-`""` call stores
`learningRate`-scaled gradients computed at the (unchanged) current
parameters, overwriting the previously stored deltas; hence running
mode `""` over any example sequence and then flushing once with
`"batch"` applies only the LAST example's update: it produces exactly
the weights and biases of a single online step on that last example from
the same initial state (and not, for two or more examples, the sum of
the sequential online updates — see the counterexample). -/
theorem c4_amended (acts derivs : String → Option (ℚ → ℚ)) (w0 : ℕ) (rest : List ℕ)
    (names : List String) (lr : ℚ) (exs : List (List ℚ × List ℚ))
    (lastEx : List ℚ × List ℚ) (yB : List ℚ) (s0 sAcc sB sO : NetState)
    (hg : goodState w0 rest s0) (hn : names.length = rest.length)
    (hAcc : runSteps acts derivs (w0 :: rest) names lr 0 accumName (exs ++ [lastEx]) s0
      = .ok sAcc)
    (hB : backPropagation derivs (w0 :: rest) yB lr 0 batchName names sAcc = .ok sB)
    (hO : trainStep acts derivs (w0 :: rest) names lr 0 onlineName lastEx s0 = .ok sO) :
    sB.weights = sO.weights ∧ sB.bias = sO.bias := by
  obtain ⟨sMid, hMid, hLast⟩ :=
    runSteps_append acts derivs (w0 :: rest) names lr 0 accumName exs lastEx s0 sAcc hAcc
  obtain ⟨hgMid, hbMid, hwMid⟩ :=
    runSteps_accum_frame acts derivs w0 rest names lr 0 exs s0 sMid hg hn hMid
  rw [trainStep] at hLast hO
  cases hfM : forwardPropagation acts (w0 :: rest) lastEx.1 names sMid with
  | error e => rw [hfM] at hLast; cases hLast
  | ok sfM =>
  rw [hfM] at hLast
  cases hfO : forwardPropagation acts (w0 :: rest) lastEx.1 names s0 with
  | error e => rw [hfO] at hO; cases hO
  | ok sfO =>
  rw [hfO] at hO
  obtain ⟨hgfM, hbfM, hwfM, _, _⟩ :=
    forward_frame_good acts w0 rest lastEx.1 names sMid sfM hgMid hn hfM
  obtain ⟨hgfO, hbfO, hwfO, _, _⟩ :=
    forward_frame_good acts w0 rest lastEx.1 names s0 sfO hg hn hfO
  obtain ⟨hzeq, haeq⟩ :=
    forward_det acts w0 rest lastEx.1 names sMid s0 sfM sfO hbMid hwMid hfM hfO
  obtain ⟨hyA, dsM, hresM, rfl⟩ :=
    backProp_accum_inv derivs w0 rest lastEx.2 lr 0 accumName names sfM sAcc
      (by decide) (by decide) hLast
  obtain ⟨hyO, dsO, hresO, rfl⟩ :=
    backProp_online_inv derivs w0 rest lastEx.2 lr 0 names sfO sO hO
  obtain rfl : dsM = dsO := Option.some.inj (hresM.symm.trans hresO)
  have hweq : sfM.weights = sfO.weights := hwfM.trans (hwMid.trans hwfO.symm)
  have hbeq : sfM.bias = sfO.bias := hbfM.trans (hbMid.trans hbfO.symm)
  have hDeq : deltasOf dsM lastEx.2 sfM = deltasOf dsM lastEx.2 sfO := by
    rw [deltasOf, deltasOf, hzeq, haeq, hweq]
  have hDBeq : List.zipWith (blendB 0 lr) sfM.deltaBias (deltasOf dsM lastEx.2 sfM)
      = List.zipWith (blendB 0 lr) sfO.deltaBias (deltasOf dsM lastEx.2 sfO) := by
    rw [← hDeq]
    exact zip_blendB_zero_congr lr rest sfM.deltaBias sfO.deltaBias _
      hgfM.2.2.2.1 hgfO.2.2.2.1
  have hDWeq : zipW3 (blendW 0 lr) sfM.deltaWeights sfM.a.dropLast
        (deltasOf dsM lastEx.2 sfM)
      = zipW3 (blendW 0 lr) sfO.deltaWeights sfO.a.dropLast
        (deltasOf dsM lastEx.2 sfO) := by
    rw [← hDeq, haeq]
    exact zip_blendW_zero_congr lr w0 rest sfM.deltaWeights sfO.deltaWeights _ _
      hgfM.2.2.2.2.2 hgfO.2.2.2.2.2
  obtain ⟨hyB2, _, rfl⟩ := backProp_batch_inv derivs w0 rest yB lr 0 names _ sB hB
  constructor
  · show addMats sfM.weights _ = addMats sfO.weights _
    rw [hweq, hDWeq]
  · show addRows sfM.bias _ = addRows sfO.bias _
    rw [hbeq, hDBeq]

/-- Witness for the amended C4 on the concrete `[1, 1]` scenario: one
accumulated example, then the last example, flush, versus one online
step on the last example. -/
theorem c4_witness :
    goodState 1 [1] cxS0 ∧
    runSteps (actOf (fun x => x)) (actDerivOf (fun _ => 1)) [1, 1] [identityName] 1 0
        accumName ([([1], [1])] ++ [([1], [3])]) cxS0
      = .ok ⟨[[0]], [[1], [0]], [[0]], [[-3]], [[[0]]], [[[-3]]]⟩ ∧
    backPropagation (actDerivOf (fun _ => 1)) [1, 1] [3] 1 0 batchName [identityName]
        ⟨[[0]], [[1], [0]], [[0]], [[-3]], [[[0]]], [[[-3]]]⟩
      = .ok ⟨[[0]], [[1], [0]], [[-3]], [[-3]], [[[-3]]], [[[-3]]]⟩ ∧
    trainStep (actOf (fun x => x)) (actDerivOf (fun _ => 1)) [1, 1] [identityName] 1 0
        onlineName ([1], [3]) cxS0
      = .ok ⟨[[0]], [[1], [0]], [[-3]], [[-3]], [[[-3]]], [[[-3]]]⟩ ∧
    (⟨[[0]], [[1], [0]], [[-3]], [[-3]], [[[-3]]], [[[-3]]]⟩ : NetState).weights
        = (⟨[[0]], [[1], [0]], [[-3]], [[-3]], [[[-3]]], [[[-3]]]⟩ : NetState).weights ∧
    (⟨[[0]], [[1], [0]], [[-3]], [[-3]], [[[-3]]], [[[-3]]]⟩ : NetState).bias
        = (⟨[[0]], [[1], [0]], [[-3]], [[-3]], [[[-3]]], [[[-3]]]⟩ : NetState).bias := by
  have h1 : runSteps (actOf (fun x => x)) (actDerivOf (fun _ => 1)) [1, 1] [identityName]
      1 0 accumName ([([1], [1])] ++ [([1], [3])]) cxS0
      = .ok ⟨[[0]], [[1], [0]], [[0]], [[-3]], [[[0]]], [[[-3]]]⟩ := by
    simp [cxS0, runSteps, trainStep, forwardPropagation, layerZip, forwardLayers,
      preActRow, colSum, actOf, actDerivOf, identityName, sigmoidName, accumName,
      batchName, onlineName, backPropagation, resolveActs, deltasOf, computeDeltas,
      outDelta, hiddenDelta, backSum, blendB, blendW, zipW3, addRows, addMats, addV,
      List.range_succ, List.getLastD]
  have h2 : backPropagation (actDerivOf (fun _ => 1)) [1, 1] [3] 1 0 batchName
      [identityName] ⟨[[0]], [[1], [0]], [[0]], [[-3]], [[[0]]], [[[-3]]]⟩
      = .ok ⟨[[0]], [[1], [0]], [[-3]], [[-3]], [[[-3]]], [[[-3]]]⟩ := by
    simp [backPropagation, resolveActs, actDerivOf, identityName, sigmoidName,
      batchName, addRows, addMats, addV, List.getLastD]
  have h3 : trainStep (actOf (fun x => x)) (actDerivOf (fun _ => 1)) [1, 1] [identityName]
      1 0 onlineName ([1], [3]) cxS0
      = .ok ⟨[[0]], [[1], [0]], [[-3]], [[-3]], [[[-3]]], [[[-3]]]⟩ := by
    simp [cxS0, trainStep, forwardPropagation, layerZip, forwardLayers, preActRow,
      colSum, actOf, actDerivOf, identityName, sigmoidName, accumName, batchName,
      onlineName, backPropagation, resolveActs, deltasOf, computeDeltas, outDelta,
      hiddenDelta, backSum, blendB, blendW, zipW3, addRows, addMats, addV,
      List.range_succ, List.getLastD]
  have hgood : goodState 1 [1] cxS0 := by
    unfold goodState rowsShape matsShape
    decide
  exact ⟨hgood, h1, h2, h3,
    (c4_amended (actOf (fun x => x)) (actDerivOf (fun _ => 1)) 1 [1] [identityName] 1
      [([1], [1])] ([1], [3]) [3] cxS0 _ _ _ hgood rfl h1 h2 h3).1,
    (c4_amended (actOf (fun x => x)) (actDerivOf (fun _ => 1)) 1 [1] [identityName] 1
      [([1], [1])] ([1], [3]) [3] cxS0 _ _ _ hgood rfl h1 h2 h3).2⟩

/-- Witness for C2: one accumulate-mode call on `exS` (learning rate 1,
momentum 1, identity activation). -/
theorem c2_witness :
    accumName ≠ batchName ∧
    backPropagation (actDerivOf (fun _ => 1)) [1, 1] [1] 1 1 accumName [identityName] exS
      = .ok exS' ∧
    ∃ ds, resolveActs (actDerivOf (fun _ => 1)) [identityName] = some ds ∧
      (∀ L j, L < exS'.deltaBias.length → j < (exS'.deltaBias.getD L []).length →
        (exS'.deltaBias.getD L []).getD j 0
          = 1 * (exS.deltaBias.getD L []).getD j 0
            + 1 * ((deltasOf ds [1] exS).getD L []).getD j 0)
      ∧ (∀ L i j, L < exS'.deltaWeights.length →
          i < (exS'.deltaWeights.getD L []).length →
          j < ((exS'.deltaWeights.getD L []).getD i []).length →
          ((exS'.deltaWeights.getD L []).getD i []).getD j 0
            = 1 * ((exS.deltaWeights.getD L []).getD i []).getD j 0
              + 1 * (((deltasOf ds [1] exS).getD L []).getD j 0
                  * (exS.a.dropLast.getD L []).getD i 0)) := by
  have hrun : backPropagation (actDerivOf (fun _ => 1)) [1, 1] [1] 1 1 accumName
      [identityName] exS = .ok exS' := by
    simp [exS, exS', backPropagation, resolveActs, actDerivOf, identityName, sigmoidName,
      accumName, batchName, onlineName, deltasOf, computeDeltas, outDelta, hiddenDelta,
      backSum, blendB, blendW, zipW3, List.range_succ, List.getLastD] <;> norm_num
  exact ⟨by decide, hrun,
    c2_blend_formula (actDerivOf (fun _ => 1)) 1 [1] [1] 1 1 accumName [identityName]
      exS exS' (by decide) hrun⟩

/-- Witness for C3: an unrecognized learning-type string on `exS`. -/
theorem c3_witness :
    miniName ≠ onlineName ∧ miniName ≠ batchName ∧
    ([(1 : ℚ)].length = [1].getLastD 1) ∧
    (∀ nm ∈ [identityName], ((actDerivOf (fun _ => 1)) nm).isSome) ∧
    ∃ ds, resolveActs (actDerivOf (fun _ => 1)) [identityName] = some ds ∧
      backPropagation (actDerivOf (fun _ => 1)) [1, 1] [1] 1 1 miniName [identityName] exS
        = .ok { exS with
            deltaBias := List.zipWith (blendB 1 1) exS.deltaBias (deltasOf ds [1] exS),
            deltaWeights := zipW3 (blendW 1 1) exS.deltaWeights exS.a.dropLast
              (deltasOf ds [1] exS) } :=
  ⟨by decide, by decide, rfl, by decide,
    c3_accumulate_only (actDerivOf (fun _ => 1)) 1 [1] [1] 1 1 miniName [identityName]
      exS (by decide) (by decide) rfl (by decide)⟩

end BPNN
